import Mathlib

/-!
Shallow embedding of `bundle-rs` (src/syntax.rs and src/lib.rs).

Lines are modelled as `List Char`; span offsets are character indices
(they coincide with the byte offsets used by the Rust code on the ASCII
inputs exercised here).  The four lazily-compiled regexes of
`src/syntax.rs` are embedded as deterministic character automata that
realise the leftmost-first (Perl-style) match semantics of the `regex`
crate on those anchored patterns:

  PUB_MOD_REGEX    = ^\s*(pub)?\s*mod (.+);
  USE_SINGLE_REGEX = ^\s*use\s*((\w+::)*([\w]+));
  USE_MULTI_REGEX  = ^\s*use\s*(((\w+)::)+\{(.+)\};)
  OTHER_LINE_REGEX = ^\s*(?P<line>.+?)\s*$

`\s` is modelled on its ASCII part, `\w` as alphanumeric-or-underscore,
and `.` as any character other than a newline, as in the regex crate.
Mandatory capture groups (those on every matching path of a pattern) are
represented as non-optional fields of the capture records, mirroring the
fact that `Captures::get` cannot return `None` for them.
-/

/-- ASCII part of the regex class `\s`. -/
def isWs (c : Char) : Bool :=
  c = ' ' || c = '\t' || c = '\n' || c = '\r' || c = '\x0b' || c = '\x0c'

/-- The regex class `\w`: alphanumeric or underscore. -/
def isWordChar (c : Char) : Bool :=
  c.isAlphanum || c = '_'

/-- The regex metacharacter `.`: anything but a newline. -/
def isNotNl (c : Char) : Bool :=
  c ≠ '\n'

/-- `LineRef` from src/syntax.rs: a `(start, size)` span into a line. -/
structure LineRef where
  start : Nat
  size : Nat
deriving DecidableEq, Repr

/-- `LineRef::resolve_unchecked`: the substring `line[start .. start+size]`. -/
def LineRef.resolve (r : LineRef) (line : List Char) : List Char :=
  (line.drop r.start).take r.size

/-- `LineToken` from src/syntax.rs. -/
inductive LineToken where
  | declareOtherModule (line : List Char) (name : LineRef) (is_pub : Bool)
  | useModule (line : List Char) (name : LineRef)
  | useManyModules (names : List LineRef) (line : List Char) (parent : LineRef)
  | module (name : List Char) (is_pub : Bool) (tokens : List LineToken)
  | otherLine (line : List Char) (trimmed_ref : LineRef)

/-- `LineRefTokenizer` from src/syntax.rs, as a recursion over the suffix of
the input that starts at index `start + size`; each loop iteration of the
Rust `next` inspects exactly that character and advances it by one. -/
def tokGo : List Char → Nat → Nat → List LineRef
  | [], start, size => if size > 0 then [⟨start, size⟩] else []
  | c :: rest, start, size =>
    if c = ',' then ⟨start, size⟩ :: tokGo rest (start + size + 1) 0
    else if c = ' ' ∧ size = 0 then tokGo rest (start + 1) 0
    else tokGo rest start (size + 1)

/-- `LineRefTokenizer::new(input).collect()`. -/
def lineRefTokenize (cs : List Char) : List LineRef :=
  tokGo cs 0 0

/-- The largest index `j ≥ 1` of `scan` holding `';'`; realises the greedy
`(.+);` tail of PUB_MOD_REGEX on the newline-free prefix `scan`. -/
def lastSemiIdx (scan : List Char) : Option Nat :=
  (List.range scan.length).reverse.findSome? fun j =>
    if 1 ≤ j ∧ scan.get? j = some ';' then some j else none

/-- The largest index `j ≥ 1` with `scan[j] = '}'` and `scan[j+1] = ';'`;
realises the greedy `(.+)\};` tail of USE_MULTI_REGEX on the newline-free
prefix `scan`. -/
def lastCloseSemi (scan : List Char) : Option Nat :=
  (List.range scan.length).reverse.findSome? fun j =>
    if 1 ≤ j ∧ scan.get? j = some '}' ∧ scan.get? (j + 1) = some ';' then some j
    else none

/-- Match a literal regex fragment: `stripLit lit cs` returns the rest of
`cs` after the literal `lit`, or `none` if `cs` does not start with it. -/
def stripLit : List Char → List Char → Option (List Char)
  | [], cs => some cs
  | _ :: _, [] => none
  | l :: ls, c :: cs => if c = l then stripLit ls cs else none

/-- Tail of PUB_MOD_REGEX after the literal `"mod "`: `(.+);` taken greedily,
so the capture runs to the last `';'` in the newline-free stretch. `body`
is the rest of the line and `bodyStart` its index in the full line. -/
def pubModTail (body : List Char) (bodyStart : Nat) : Option LineRef :=
  match lastSemiIdx (body.takeWhile isNotNl) with
  | some j => some ⟨bodyStart, j⟩
  | none => none

/-- Captures of PUB_MOD_REGEX: whether group 1 (`pub`) participated, and
group 2 (the module name).  Backtracking is not needed: `\s*` is maximal
(whitespace cannot start `pub` or `mod`), and if the literal `pub` is
present, dropping it cannot help since the following `\s*mod ` would then
have to match text beginning with `'p'`. -/
def pubModCaptures (cs : List Char) : Option (Bool × LineRef) :=
  let w := (cs.takeWhile isWs).length
  match stripLit "pub".data (cs.drop w) with
  | some r =>
    let w2 := (r.takeWhile isWs).length
    match stripLit "mod ".data (r.drop w2) with
    | some body =>
      (pubModTail body (w + 3 + w2 + 4)).map (fun nref => (true, nref))
    | none => none
  | none =>
    match stripLit "mod ".data (cs.drop w) with
    | some body => (pubModTail body (w + 4)).map (fun nref => (false, nref))
    | none => none

/-- Automaton for `((\w+::)*([\w]+));` of USE_SINGLE_REGEX, started at
absolute index `i`.  State `st`: 0 = a word run must start, 1 = inside a
word run, 2 = one `':'` seen after a run.  Returns the end index of
group 1 (the full path), i.e. the index of the final `';'`.  Word runs are
maximal and the separators are fixed characters, so the regex match on
this suffix is deterministic. -/
def pathGo : List Char → Nat → Nat → Option Nat
  | [], _, _ => none
  | c :: rest, i, st =>
    if isWordChar c then
      if st = 2 then none else pathGo rest (i + 1) 1
    else if st = 1 ∧ c = ';' then some i
    else if st = 1 ∧ c = ':' then pathGo rest (i + 1) 2
    else if st = 2 ∧ c = ':' then pathGo rest (i + 1) 0
    else none

/-- Captures of USE_SINGLE_REGEX: group 1, the full dotted path. -/
def useSingleCaptures (cs : List Char) : Option LineRef :=
  let w := (cs.takeWhile isWs).length
  match stripLit "use".data (cs.drop w) with
  | some r =>
    let w2 := (r.takeWhile isWs).length
    let st := w + 3 + w2
    (pathGo (r.drop w2) st 0).map (fun e => ⟨st, e - st⟩)
  | none => none

/-- Automaton for `((\w+)::)+\{` of USE_MULTI_REGEX, started at absolute
index `i`.  State `st`: 0 = first word run must start, 1 = in a run,
2 = one `':'` seen, 3 = a `"::"` just completed (a new run or the brace
may follow).  `rs`/`re` track the start/end of the most recent word run,
so that on success the returned `LineRef` is capture group 3 — the *last*
iteration of `(\w+)` — together with the index just past the `'{'`. -/
def multiGo : List Char → Nat → Nat → Nat → Nat → Option (LineRef × Nat)
  | [], _, _, _, _ => none
  | c :: rest, i, rs, re, st =>
    if isWordChar c then
      if st = 1 then multiGo rest (i + 1) rs re 1
      else if st = 2 then none
      else multiGo rest (i + 1) i re 1
    else if st = 1 ∧ c = ':' then multiGo rest (i + 1) rs i 2
    else if st = 2 ∧ c = ':' then multiGo rest (i + 1) rs re 3
    else if st = 3 ∧ c = '{' then some (⟨rs, re - rs⟩, i + 1)
    else none

/-- Captures of USE_MULTI_REGEX: the offset-shifted name spans produced by
the line tokenizer on group 4 (the brace content), and group 3 (the last
`(\w+)` iteration), in the order `parse_line` consumes them. -/
def useMultiCaptures (cs : List Char) : Option (List LineRef × LineRef) :=
  let w := (cs.takeWhile isWs).length
  match stripLit "use".data (cs.drop w) with
  | some r =>
    let w2 := (r.takeWhile isWs).length
    let st := w + 3 + w2
    match multiGo (r.drop w2) st st st 0 with
    | some (parentRef, contentStart) =>
      let scan := (cs.drop contentStart).takeWhile isNotNl
      match lastCloseSemi scan with
      | some j =>
        let names := (tokGo (scan.take j) 0 0).map
          (fun r => ⟨r.start + contentStart, r.size⟩)
        some (names, parentRef)
      | none => none
    | none => none
  | none => none

/-- Captures of OTHER_LINE_REGEX `^\s*(?P<line>.+?)\s*$` under leftmost-first
semantics: the leading `\s*` is tried greedily and backed off one character
at a time, and for each prefix length `a` the lazy `.+?` stops at the
earliest `j ≥ max (a+1) T` (where `T` is the least index from which the
suffix is all whitespace) that it can reach without crossing a newline. -/
def otherCaptures (cs : List Char) : Option LineRef :=
  let w := (cs.takeWhile isWs).length
  let t := cs.length - (cs.reverse.takeWhile isWs).length
  (List.range (w + 1)).reverse.findSome? fun a =>
    let j := max (a + 1) t
    if j ≤ a + ((cs.drop a).takeWhile isNotNl).length then
      some ⟨a, j - a⟩
    else none

/-- `parse_line` from src/syntax.rs: the four patterns in source order,
with the unconditional `OtherLine` fallback. -/
def parse_line (cs : List Char) : LineToken :=
  match pubModCaptures cs with
  | some (is_pub, nref) => .declareOtherModule cs nref is_pub
  | none =>
  match useSingleCaptures cs with
  | some nref => .useModule cs nref
  | none =>
  match useMultiCaptures cs with
  | some (names, parentRef) => .useManyModules names cs parentRef
  | none =>
  match otherCaptures cs with
  | some r => .otherLine cs r
  | none => .otherLine cs ⟨0, cs.length⟩

mutual

/-- One token of `Bundle::write_tokens` (src/lib.rs): the four line-carrying
variants emit their stored line followed by one `'\n'`; a `Module` emits
`"pub "` when public, then `mod <name>{`, a newline, its children, and a
closing `}` line. -/
def writeToken : LineToken → List Char
  | .useModule line _ => line ++ ['\n']
  | .useManyModules _ line _ => line ++ ['\n']
  | .declareOtherModule line _ _ => line ++ ['\n']
  | .otherLine line _ => line ++ ['\n']
  | .module name is_pub tokens =>
    (if is_pub then "pub ".data else []) ++ "mod ".data ++ name ++ ['{', '\n']
      ++ write_tokens tokens ++ ['}', '\n']

/-- `Bundle::write_tokens` over a token list, output as accumulated text. -/
def write_tokens : List LineToken → List Char
  | [] => []
  | t :: ts => writeToken t ++ write_tokens ts

end

/-- The pluggable resolver (`FileSystem::open_submodule`): relative path and
module name to either the submodule's lines or an error of type `ε`. -/
def FS (ε : Type) : Type :=
  List Char → List Char → Except ε (List (List Char))

/-- `Bundle::load_tokens` (src/lib.rs).  A declaration line is resolved
(`name.resolve_unchecked(line)`), the submodule opened through the
resolver — any failure aborts at once — loaded recursively under the
extended relative path, and replaced by an always-public `Module` token;
every other classified token is kept as is.  The `fuel` argument bounds
the recursion depth and line count and is an artifact of the embedding
(`none` = fuel exhausted); the Rust recursion has no such bound and the
claims are stated with sufficient fuel. -/
def load_tokens (fs : FS ε) : Nat → List Char → List (List Char) →
    Option (Except ε (List LineToken))
  | 0, _, _ => none
  | _ + 1, _, [] => some (.ok [])
  | f + 1, rel, line :: rest =>
    match parse_line line with
    | .declareOtherModule l nref _ =>
      let nm := nref.resolve l
      match fs rel nm with
      | .error e => some (.error e)
      | .ok sub =>
        match load_tokens fs f (rel ++ '/' :: nm) sub with
        | none => none
        | some (.error e) => some (.error e)
        | some (.ok subToks) =>
          match load_tokens fs f rel rest with
          | none => none
          | some (.error e) => some (.error e)
          | some (.ok toks) => some (.ok (.module nm true subToks :: toks))
    | t =>
      match load_tokens fs f rel rest with
      | none => none
      | some (.error e) => some (.error e)
      | some (.ok toks) => some (.ok (t :: toks))

/-- The `Bundle` state: entry module name and the loaded token tree. -/
structure Bundle where
  entry_module : List Char
  loaded_tokens : List LineToken

/-- `Bundle::load`: open the entry module with an empty relative path, load
its token tree, and store it; on any failure the stored tokens are left
untouched and the error is returned as is. -/
def Bundle.load (fs : FS ε) (fuel : Nat) (b : Bundle) :
    Option (Except ε Unit × Bundle) :=
  match fs [] b.entry_module with
  | .error e => some (.error e, b)
  | .ok lines =>
    match load_tokens fs fuel [] lines with
    | none => none
    | some (.error e) => some (.error e, b)
    | some (.ok toks) => some (.ok (), { b with loaded_tokens := toks })

/-- `Bundle::write` of the loaded tree. -/
def Bundle.write (b : Bundle) : List Char :=
  write_tokens b.loaded_tokens

/-! Derived notions used by the statements below. -/

/-- Concatenate lines, terminating each with `'\n'` (the writer's framing). -/
def unlines (lines : List (List Char)) : List Char :=
  lines.foldr (fun l acc => l ++ '\n' :: acc) []

/-- A line with leading and trailing whitespace stripped. -/
def listTrim (cs : List Char) : List Char :=
  (((cs.dropWhile isWs).reverse.dropWhile isWs)).reverse

/-- Whether a token is a submodule-declaration line. -/
def LineToken.isDecl : LineToken → Bool
  | .declareOtherModule _ _ _ => true
  | _ => false

mutual

/-- Every `Module` block in the token (recursively) is marked public. -/
def allPubTok : LineToken → Bool
  | .module _ is_pub tokens => is_pub && allPubList tokens
  | _ => true

/-- `allPubTok` over a token list. -/
def allPubList : List LineToken → Bool
  | [] => true
  | t :: ts => allPubTok t && allPubList ts

end

/-- The loader's per-line contract: a declaration line is replaced, in
place, by a public `Module` named by its resolved name span; any other
line keeps its classified token. -/
def replacesLine (line : List Char) (tok : LineToken) : Prop :=
  match parse_line line with
  | .declareOtherModule l nref _ => ∃ sub, tok = .module (nref.resolve l) true sub
  | t => tok = t

/-- All spans stored in a classifier-produced token stay inside its line. -/
def tokenSpansOK : LineToken → Bool
  | .declareOtherModule l nref _ => nref.start + nref.size ≤ l.length
  | .useModule l nref => nref.start + nref.size ≤ l.length
  | .useManyModules names l parentRef =>
    (decide (parentRef.start + parentRef.size ≤ l.length)) &&
      names.all (fun r => r.start + r.size ≤ l.length)
  | .otherLine l r => r.start + r.size ≤ l.length
  | .module _ _ _ => true

/-- The path segments of a multi-import prefix, each followed by `"::"`. -/
def joinSegs (segs : List (List Char)) : List Char :=
  segs.foldr (fun s acc => s ++ ':' :: ':' :: acc) []

/-- Names joined by `", "`, the layout of the multi-import brace group. -/
def sepNames : List (List Char) → List Char
  | [] => []
  | [n] => n
  | n :: ns => n ++ ',' :: ' ' :: sepNames ns

/-- A multi-import line `use <s1>::…::<sk>::{<n1>, …, <nm>};`. -/
def mkMultiLine (segs names : List (List Char)) : List Char :=
  "use ".data ++ joinSegs segs ++ '{' :: sepNames names ++ ['}', ';']

/-- A submodule-declaration line `[ws][pub ]mod <text>;`. -/
def mkModLine (ws text : List Char) (pubkw : Bool) : List Char :=
  ws ++ (if pubkw then "pub ".data else []) ++ "mod ".data ++ text ++ [';']

/-- The name spans the tokenizer produces for `", "`-separated names laid
out from absolute position `start`. -/
def spansFrom (start : Nat) : List (List Char) → List LineRef
  | [] => []
  | n :: ns => ⟨start, n.length⟩ :: spansFrom (start + n.length + 2) ns

/-- In-memory resolver mirroring `prep_file_system` in the src/lib.rs tests
(a `HashMapFiles` keyed on the module name alone), failing with the
resolver's fixed not-found message otherwise. -/
def testFS : FS (List Char) := fun _ name =>
  if name = "main".data then
    .ok ["use std::io;".data, "use std::{BufReader};".data, "pub mod game;".data,
         "enum Test \x7b".data, "    One,".data, "\x7d".data]
  else if name = "game".data then
    .ok ["struct Game \x7b".data, "    test: i32,".data, "\x7d".data,
         "use std::fs::{File}".data, "use std::io;".data]
  else .error "not found".data

/-- A resolver that fails on every request, reporting exactly the relative
path and module name it received; used to observe what the loader passes
to the resolver. -/
def probeFS : FS (List Char × List Char) := fun rel name => .error (rel, name)

/-- A resolver holding only a root module that declares a missing child. -/
def fsMissingSub : FS (List Char) := fun _ name =>
  if name = "main".data then .ok ["pub mod game;".data]
  else .error "not found".data

/-- Whether `needle` occurs contiguously inside `hay`. -/
def containsSeq (hay needle : List Char) : Bool :=
  (List.range (hay.length + 1)).any fun i =>
    (hay.drop i).take needle.length == needle

/-! Sanity checks mirroring the unit tests in src/syntax.rs. -/

example : lineRefTokenize "a, bb, cccc".data = [⟨0, 1⟩, ⟨3, 2⟩, ⟨7, 4⟩] := by decide

example : lineRefTokenize "a,  bb,cccc".data = [⟨0, 1⟩, ⟨4, 2⟩, ⟨7, 4⟩] := by decide

example : parse_line "pub mod game;".data =
    .declareOtherModule "pub mod game;".data ⟨8, 4⟩ true := by rfl

example : parse_line "mod test_this;".data =
    .declareOtherModule "mod test_this;".data ⟨4, 9⟩ false := by rfl

example : parse_line "use std::io::Buf;".data =
    .useModule "use std::io::Buf;".data ⟨4, 12⟩ := by rfl

example : parse_line "use std::{collections::HashSet, io::BufWriter};".data =
    .useManyModules [⟨10, 20⟩, ⟨32, 13⟩]
      "use std::{collections::HashSet, io::BufWriter};".data ⟨4, 3⟩ := by rfl

example : parse_line "   class Turn  ".data =
    .otherLine "   class Turn  ".data ⟨3, 10⟩ := by rfl

/-! Sanity checks mirroring `it_works` and `write_works` in src/lib.rs. -/

example :
    Bundle.load testFS 20 ⟨"main".data, []⟩ =
      some (.ok (), ⟨"main".data,
        [.useModule "use std::io;".data ⟨4, 7⟩,
         .useManyModules [⟨10, 9⟩] "use std::{BufReader};".data ⟨4, 3⟩,
         .module "game".data true
           [.otherLine "struct Game \x7b".data ⟨0, 13⟩,
            .otherLine "    test: i32,".data ⟨4, 10⟩,
            .otherLine "\x7d".data ⟨0, 1⟩,
            .otherLine "use std::fs::{File}".data ⟨0, 19⟩,
            .useModule "use std::io;".data ⟨4, 7⟩],
         .otherLine "enum Test \x7b".data ⟨0, 11⟩,
         .otherLine "    One,".data ⟨4, 4⟩,
         .otherLine "\x7d".data ⟨0, 1⟩]⟩) := by rfl

example :
    write_tokens
        [.useModule "use std::io;".data ⟨4, 7⟩,
         .module "game".data true [.otherLine "struct Game \x7b".data ⟨0, 13⟩]] =
      "use std::io;\npub mod game\x7b\nstruct Game \x7b\n\x7d\n".data := by
  simp [write_tokens, writeToken]

/-! General helper lemmas. -/

theorem findSome?_eq_some_mem {α β : Type} {f : α → Option β} :
    ∀ {l : List α} {b : β}, l.findSome? f = some b → ∃ a ∈ l, f a = some b := by
  intro l
  induction l with
  | nil => intro b h; simp [List.findSome?] at h
  | cons a t ih =>
    intro b h
    cases hfa : f a with
    | some v =>
      rw [List.findSome?_cons, hfa] at h
      simp at h
      exact ⟨a, by simp, by rw [hfa, h]⟩
    | none =>
      rw [List.findSome?_cons, hfa] at h
      simp at h
      obtain ⟨x, hx, hfx⟩ := ih h
      exact ⟨x, by simp [hx], hfx⟩

theorem takeWhile_append_of_all {α : Type} (p : α → Bool) :
    ∀ (a b : List α), (∀ c ∈ a, p c = true) →
      (a ++ b).takeWhile p = a ++ b.takeWhile p := by
  intro a
  induction a with
  | nil => intro b _; simp
  | cons c t ih =>
    intro b h
    have hc : p c = true := h c (by simp)
    simp only [List.cons_append, List.takeWhile_cons, hc, if_true]
    rw [ih b (fun x hx => h x (by simp [hx]))]

theorem takeWhile_cons_of_false {α : Type} (p : α → Bool) (c : α) (t : List α)
    (h : p c = false) : (c :: t).takeWhile p = [] := by
  simp [List.takeWhile_cons, h]

theorem takeWhile_eq_self_of_all {α : Type} (p : α → Bool) :
    ∀ (l : List α), (∀ c ∈ l, p c = true) → l.takeWhile p = l := by
  intro l
  induction l with
  | nil => intro _; rfl
  | cons c t ih =>
    intro h
    simp only [List.takeWhile_cons, h c (by simp), if_true]
    rw [ih (fun x hx => h x (by simp [hx]))]

/-! C2: writer behaviour. -/

theorem parse_line_ne_module (cs name : List Char) (is_pub : Bool)
    (toks : List LineToken) : parse_line cs ≠ .module name is_pub toks := by
  unfold parse_line
  split
  · simp
  · split
    · simp
    · split
      · simp
      · split <;> simp

theorem writeToken_parse_line (cs : List Char) :
    writeToken (parse_line cs) = cs ++ ['\n'] := by
  unfold parse_line
  split
  · simp [writeToken]
  · split
    · simp [writeToken]
    · split
      · simp [writeToken]
      · split <;> simp [writeToken]

/-- C2: `write_tokens` emits the four line-carrying tokens as their stored
original line plus exactly one `'\n'` — for every value of their spans,
which are therefore never consulted — and a `Block` as `[pub ]mod <name>{`
on its own line, its recursively written children, and a `}` line; hence
classifying any line and immediately writing the result reproduces the
line exactly (and classification never produces a `Block`). -/
theorem write_emits_lines_verbatim :
    (∀ l r b, write_tokens [LineToken.declareOtherModule l r b] = l ++ ['\n'])
    ∧ (∀ l r, write_tokens [LineToken.useModule l r] = l ++ ['\n'])
    ∧ (∀ ns l pr, write_tokens [LineToken.useManyModules ns l pr] = l ++ ['\n'])
    ∧ (∀ l r, write_tokens [LineToken.otherLine l r] = l ++ ['\n'])
    ∧ (∀ n pb ts, write_tokens [LineToken.module n pb ts] =
        (if pb then "pub ".data else []) ++ "mod ".data ++ n ++ '{' :: '\n' ::
          (write_tokens ts ++ ['}', '\n']))
    ∧ (∀ cs n pb ts, parse_line cs ≠ LineToken.module n pb ts)
    ∧ (∀ cs, write_tokens [parse_line cs] = cs ++ ['\n']) := by
  refine ⟨?_, ?_, ?_, ?_, ?_, ?_, ?_⟩
  · intro l r b; simp [write_tokens, writeToken]
  · intro l r; simp [write_tokens, writeToken]
  · intro ns l pr; simp [write_tokens, writeToken]
  · intro l r; simp [write_tokens, writeToken]
  · intro n pb ts; simp [write_tokens, writeToken]
  · exact parse_line_ne_module
  · intro cs
    show writeToken (parse_line cs) ++ write_tokens [] = cs ++ ['\n']
    rw [writeToken_parse_line]
    simp [write_tokens]

/-- C3 counterexample: on `"a,  bb,cccc"` the second space does NOT become
part of the middle field — the spans are `(0,1) (4,2) (7,4)` and the middle
field resolves to `"bb"`, not `" bb"`, refuting the one-space-skip rule. -/
theorem tokenizer_one_space_skip_false :
    lineRefTokenize "a,  bb,cccc".data = [⟨0, 1⟩, ⟨4, 2⟩, ⟨7, 4⟩]
    ∧ (lineRefTokenize "a,  bb,cccc".data).map
        (fun r => r.resolve "a,  bb,cccc".data) ≠
      ["a".data, " bb".data, "cccc".data] := by
  constructor
  · decide
  · decide

/-- C3 amended: the tokenizer splits on commas and, while a field is still
empty, skips every leading space (the skip repeats; it is not limited to
one space).  So `"a, bb, cccc"` yields spans `(0,1) (3,2) (7,4)` resolving
to `a`,`bb`,`cccc`, and `"a,  bb,cccc"` (double space) yields the same
three values at spans `(0,1) (4,2) (7,4)` — both spaces skipped. -/
theorem tokenizer_skips_all_leading_spaces :
    lineRefTokenize "a, bb, cccc".data = [⟨0, 1⟩, ⟨3, 2⟩, ⟨7, 4⟩]
    ∧ (lineRefTokenize "a, bb, cccc".data).map
        (fun r => r.resolve "a, bb, cccc".data) =
      ["a".data, "bb".data, "cccc".data]
    ∧ lineRefTokenize "a,  bb,cccc".data = [⟨0, 1⟩, ⟨4, 2⟩, ⟨7, 4⟩]
    ∧ (lineRefTokenize "a,  bb,cccc".data).map
        (fun r => r.resolve "a,  bb,cccc".data) =
      ["a".data, "bb".data, "cccc".data] := by
  refine ⟨by decide, by decide, by decide, by decide⟩

/-! Lemmas about the literal matcher. -/

theorem stripLit_eq_some {lit : List Char} :
    ∀ {d r : List Char}, stripLit lit d = some r → d = lit ++ r := by
  induction lit with
  | nil => intro d r h; simp [stripLit] at h; simp [h]
  | cons l ls ih =>
    intro d r h
    cases d with
    | nil => simp [stripLit] at h
    | cons c cs =>
      simp only [stripLit] at h
      by_cases hcl : c = l
      · rw [if_pos hcl] at h
        simp [hcl, ih h]
      · rw [if_neg hcl] at h
        cases h

theorem stripLit_append (lit rest : List Char) :
    stripLit lit (lit ++ rest) = some rest := by
  induction lit with
  | nil => rfl
  | cons l ls ih => simp [stripLit, ih]

theorem length_takeWhile_le {α : Type} (p : α → Bool) (l : List α) :
    (l.takeWhile p).length ≤ l.length := by
  have h := congrArg List.length (List.takeWhile_append_dropWhile p l)
  simp only [List.length_append] at h
  omega

theorem get?_some_lt {α : Type} :
    ∀ {l : List α} {n : Nat} {a : α}, l.get? n = some a → n < l.length := by
  intro l
  induction l with
  | nil => intro n a h; simp [List.get?] at h
  | cons x t ih =>
    intro n a h
    cases n with
    | zero => simp
    | succ m =>
      simp only [List.get?] at h
      have := ih h
      simp only [List.length_cons]
      omega

/-- Case analysis of `parse_line`: the four rules in precedence order. -/
theorem parse_line_cases (cs : List Char) :
    (∃ c, pubModCaptures cs = some c ∧
      parse_line cs = .declareOtherModule cs c.2 c.1)
    ∨ (pubModCaptures cs = none ∧ ∃ r, useSingleCaptures cs = some r ∧
        parse_line cs = .useModule cs r)
    ∨ (pubModCaptures cs = none ∧ useSingleCaptures cs = none ∧
        ∃ c, useMultiCaptures cs = some c ∧
          parse_line cs = .useManyModules c.1 cs c.2)
    ∨ (pubModCaptures cs = none ∧ useSingleCaptures cs = none ∧
        useMultiCaptures cs = none ∧ ∃ r, parse_line cs = .otherLine cs r) := by
  cases h1 : pubModCaptures cs with
  | some c =>
    obtain ⟨b, r⟩ := c
    exact Or.inl ⟨(b, r), rfl, by simp [parse_line, h1]⟩
  | none =>
    cases h2 : useSingleCaptures cs with
    | some r =>
      exact Or.inr (Or.inl ⟨rfl, r, rfl, by simp [parse_line, h1, h2]⟩)
    | none =>
      cases h3 : useMultiCaptures cs with
      | some c =>
        obtain ⟨ns, pr⟩ := c
        exact Or.inr (Or.inr (Or.inl
          ⟨rfl, rfl, (ns, pr), rfl, by simp [parse_line, h1, h2, h3]⟩))
      | none =>
        cases h4 : otherCaptures cs with
        | some r =>
          exact Or.inr (Or.inr (Or.inr
            ⟨rfl, rfl, rfl, r, by simp [parse_line, h1, h2, h3, h4]⟩))
        | none =>
          exact Or.inr (Or.inr (Or.inr
            ⟨rfl, rfl, rfl, ⟨0, cs.length⟩, by simp [parse_line, h1, h2, h3, h4]⟩))

/-- C8: `classify` is total, applying the four rules in strict precedence
order; every line matched by none of the three structural patterns
degrades to a `PlainLine` (either through OTHER_LINE_REGEX or through the
final empty-line fallback), so classification reaches a token on every
input and the structurally-guaranteed capture groups are always present. -/
theorem parse_line_total (cs : List Char) :
    (∃ c, pubModCaptures cs = some c ∧
      parse_line cs = .declareOtherModule cs c.2 c.1)
    ∨ (pubModCaptures cs = none ∧ ∃ r, useSingleCaptures cs = some r ∧
        parse_line cs = .useModule cs r)
    ∨ (pubModCaptures cs = none ∧ useSingleCaptures cs = none ∧
        ∃ c, useMultiCaptures cs = some c ∧
          parse_line cs = .useManyModules c.1 cs c.2)
    ∨ (pubModCaptures cs = none ∧ useSingleCaptures cs = none ∧
        useMultiCaptures cs = none ∧ ∃ r, parse_line cs = .otherLine cs r) :=
  parse_line_cases cs

/-! Span bounds for every classifier component (towards C9). -/

theorem lastSemiIdx_some {scan : List Char} {j : Nat}
    (h : lastSemiIdx scan = some j) :
    1 ≤ j ∧ j < scan.length ∧ scan.get? j = some ';' := by
  obtain ⟨a, ha, hfa⟩ := findSome?_eq_some_mem h
  rw [List.mem_reverse, List.mem_range] at ha
  by_cases hc : 1 ≤ a ∧ scan.get? a = some ';'
  · rw [if_pos hc] at hfa
    have haj : a = j := Option.some.inj hfa
    subst haj
    exact ⟨hc.1, ha, hc.2⟩
  · rw [if_neg hc] at hfa
    cases hfa

theorem lastCloseSemi_some {scan : List Char} {j : Nat}
    (h : lastCloseSemi scan = some j) :
    1 ≤ j ∧ scan.get? j = some '}' ∧ scan.get? (j + 1) = some ';' := by
  obtain ⟨a, ha, hfa⟩ := findSome?_eq_some_mem h
  rw [List.mem_reverse, List.mem_range] at ha
  by_cases hc : 1 ≤ a ∧ scan.get? a = some '}' ∧ scan.get? (a + 1) = some ';'
  · rw [if_pos hc] at hfa
    have haj : a = j := Option.some.inj hfa
    subst haj
    exact hc
  · rw [if_neg hc] at hfa
    cases hfa

theorem tokGo_bound :
    ∀ (rem : List Char) (start size : Nat), ∀ r ∈ tokGo rem start size,
      r.start + r.size ≤ start + size + rem.length := by
  intro rem
  induction rem with
  | nil =>
    intro start size r hr
    by_cases hs : size > 0
    · simp only [tokGo, if_pos hs, List.mem_singleton] at hr
      subst hr
      simp
    · simp [tokGo, if_neg hs] at hr
  | cons c rest ih =>
    intro start size r hr
    simp only [tokGo] at hr
    by_cases hc : c = ','
    · rw [if_pos hc] at hr
      rcases List.mem_cons.1 hr with h | h
      · subst h; simp
      · have := ih (start + size + 1) 0 r h
        simp only [List.length_cons]
        omega
    · rw [if_neg hc] at hr
      by_cases hsp : c = ' ' ∧ size = 0
      · rw [if_pos hsp] at hr
        have := ih (start + 1) 0 r hr
        simp only [List.length_cons]
        omega
      · rw [if_neg hsp] at hr
        have := ih start (size + 1) r hr
        simp only [List.length_cons]
        omega

theorem pathGo_bound :
    ∀ (cs : List Char) (i st e : Nat), pathGo cs i st = some e →
      e ≤ i + cs.length := by
  intro cs
  induction cs with
  | nil => intro i st e h; simp [pathGo] at h
  | cons c rest ih =>
    intro i st e h
    simp only [pathGo] at h
    by_cases hw : isWordChar c = true
    · rw [if_pos hw] at h
      by_cases h2 : st = 2
      · rw [if_pos h2] at h; cases h
      · rw [if_neg h2] at h
        have := ih (i + 1) 1 e h
        simp only [List.length_cons]
        omega
    · rw [if_neg hw] at h
      by_cases ha : st = 1 ∧ c = ';'
      · rw [if_pos ha] at h
        have : i = e := Option.some.inj h
        simp only [List.length_cons]
        omega
      · rw [if_neg ha] at h
        by_cases hb : st = 1 ∧ c = ':'
        · rw [if_pos hb] at h
          have := ih (i + 1) 2 e h
          simp only [List.length_cons]
          omega
        · rw [if_neg hb] at h
          by_cases hd : st = 2 ∧ c = ':'
          · rw [if_pos hd] at h
            have := ih (i + 1) 0 e h
            simp only [List.length_cons]
            omega
          · rw [if_neg hd] at h; cases h

theorem multiGo_bound :
    ∀ (cs : List Char) (i rs re st : Nat) (pr : LineRef) (cst : Nat),
      multiGo cs i rs re st = some (pr, cst) →
      (st = 1 → rs ≤ i) → ((st = 2 ∨ st = 3) → rs ≤ re ∧ re ≤ i) →
      pr.start + pr.size ≤ i + cs.length ∧ cst ≤ i + cs.length := by
  intro cs
  induction cs with
  | nil => intro i rs re st pr cst h _ _; simp [multiGo] at h
  | cons c rest ih =>
    intro i rs re st pr cst h hinv1 hinv2
    simp only [multiGo] at h
    by_cases hw : isWordChar c = true
    · rw [if_pos hw] at h
      by_cases h1 : st = 1
      · rw [if_pos h1] at h
        have := ih (i + 1) rs re 1 pr cst h
          (fun _ => le_trans (hinv1 h1) (Nat.le_succ i)) (by simp)
        simp only [List.length_cons]
        omega
      · rw [if_neg h1] at h
        by_cases h2 : st = 2
        · rw [if_pos h2] at h; cases h
        · rw [if_neg h2] at h
          have := ih (i + 1) i re 1 pr cst h
            (fun _ => Nat.le_succ i) (by simp)
          simp only [List.length_cons]
          omega
    · rw [if_neg hw] at h
      by_cases ha : st = 1 ∧ c = ':'
      · rw [if_pos ha] at h
        have := ih (i + 1) rs i 2 pr cst h (by simp)
          (fun _ => ⟨hinv1 ha.1, Nat.le_succ i⟩)
        simp only [List.length_cons]
        omega
      · rw [if_neg ha] at h
        by_cases hb : st = 2 ∧ c = ':'
        · rw [if_pos hb] at h
          have hre := hinv2 (Or.inl hb.1)
          have := ih (i + 1) rs re 3 pr cst h (by simp)
            (fun _ => ⟨hre.1, le_trans hre.2 (Nat.le_succ i)⟩)
          simp only [List.length_cons]
          omega
        · rw [if_neg hb] at h
          by_cases hd : st = 3 ∧ c = '{'
          · rw [if_pos hd] at h
            have hre := hinv2 (Or.inr hd.1)
            have hinj := Option.some.inj h
            simp only [Prod.mk.injEq] at hinj
            obtain ⟨hA, hB⟩ := hinj
            subst hA
            subst hB
            dsimp only
            simp only [List.length_cons]
            omega
          · rw [if_neg hd] at h; cases h

theorem pubModTail_bound {body : List Char} {bs : Nat} {r : LineRef}
    (h : pubModTail body bs = some r) :
    r.start = bs ∧ r.size ≤ body.length := by
  unfold pubModTail at h
  cases hl : lastSemiIdx (body.takeWhile isNotNl) with
  | none => rw [hl] at h; cases h
  | some j =>
    rw [hl] at h
    have hr : LineRef.mk bs j = r := Option.some.inj h
    obtain ⟨-, hlt, -⟩ := lastSemiIdx_some hl
    have hle := length_takeWhile_le isNotNl body
    subst hr
    refine ⟨rfl, ?_⟩
    show j ≤ body.length
    omega

theorem pubModCaptures_bound {cs : List Char} {b : Bool} {r : LineRef}
    (h : pubModCaptures cs = some (b, r)) : r.start + r.size ≤ cs.length := by
  have hwle := length_takeWhile_le isWs cs
  have hdl := List.length_drop ((cs.takeWhile isWs).length) cs
  cases hs1 : stripLit "pub".data (cs.drop (cs.takeWhile isWs).length) with
  | some r1 =>
    have e1 := stripLit_eq_some hs1
    have l1 := congrArg List.length e1
    have lp : ("pub".data).length = 3 := rfl
    rw [List.length_append, lp] at l1
    have hw2le := length_takeWhile_le isWs r1
    have hd2 := List.length_drop ((r1.takeWhile isWs).length) r1
    cases hs2 : stripLit "mod ".data (r1.drop (r1.takeWhile isWs).length) with
    | some body =>
      have e2 := stripLit_eq_some hs2
      have l2 := congrArg List.length e2
      have lm : ("mod ".data).length = 4 := rfl
      rw [List.length_append, lm] at l2
      cases ht : pubModTail body
          ((cs.takeWhile isWs).length + 3 + (r1.takeWhile isWs).length + 4) with
      | some nref =>
        have hcalc : pubModCaptures cs = some (true, nref) := by
          simp [pubModCaptures, hs1, hs2, ht]
        rw [hcalc] at h
        have hinj := Option.some.inj h
        simp only [Prod.mk.injEq] at hinj
        obtain ⟨-, hB⟩ := hinj
        subst hB
        obtain ⟨hst, hsz⟩ := pubModTail_bound ht
        omega
      | none => simp [pubModCaptures, hs1, hs2, ht] at h
    | none => simp [pubModCaptures, hs1, hs2] at h
  | none =>
    cases hs2 : stripLit "mod ".data (cs.drop (cs.takeWhile isWs).length) with
    | some body =>
      have e2 := stripLit_eq_some hs2
      have l2 := congrArg List.length e2
      have lm : ("mod ".data).length = 4 := rfl
      rw [List.length_append, lm] at l2
      cases ht : pubModTail body ((cs.takeWhile isWs).length + 4) with
      | some nref =>
        have hcalc : pubModCaptures cs = some (false, nref) := by
          simp [pubModCaptures, hs1, hs2, ht]
        rw [hcalc] at h
        have hinj := Option.some.inj h
        simp only [Prod.mk.injEq] at hinj
        obtain ⟨-, hB⟩ := hinj
        subst hB
        obtain ⟨hst, hsz⟩ := pubModTail_bound ht
        omega
      | none => simp [pubModCaptures, hs1, hs2, ht] at h
    | none => simp [pubModCaptures, hs1, hs2] at h

theorem useSingleCaptures_bound {cs : List Char} {r : LineRef}
    (h : useSingleCaptures cs = some r) : r.start + r.size ≤ cs.length := by
  have hwle := length_takeWhile_le isWs cs
  have hdl := List.length_drop ((cs.takeWhile isWs).length) cs
  cases hs1 : stripLit "use".data (cs.drop (cs.takeWhile isWs).length) with
  | some r1 =>
    have e1 := stripLit_eq_some hs1
    have l1 := congrArg List.length e1
    have lp : ("use".data).length = 3 := rfl
    rw [List.length_append, lp] at l1
    have hw2le := length_takeWhile_le isWs r1
    have hd2 := List.length_drop ((r1.takeWhile isWs).length) r1
    cases hp : pathGo (r1.drop ((r1.takeWhile isWs).length))
        ((cs.takeWhile isWs).length + 3 + (r1.takeWhile isWs).length) 0 with
    | some e =>
      have hcalc : useSingleCaptures cs =
          some ⟨(cs.takeWhile isWs).length + 3 + (r1.takeWhile isWs).length,
            e - ((cs.takeWhile isWs).length + 3 + (r1.takeWhile isWs).length)⟩ := by
        simp [useSingleCaptures, hs1, hp]
      rw [hcalc] at h
      have hr := Option.some.inj h
      subst hr
      have hb := pathGo_bound _ _ _ _ hp
      dsimp only
      omega
    | none => simp [useSingleCaptures, hs1, hp] at h
  | none => simp [useSingleCaptures, hs1] at h

theorem useMultiCaptures_bound {cs : List Char} {ns : List LineRef}
    {pr : LineRef} (h : useMultiCaptures cs = some (ns, pr)) :
    pr.start + pr.size ≤ cs.length ∧
      ∀ r ∈ ns, r.start + r.size ≤ cs.length := by
  have hwle := length_takeWhile_le isWs cs
  have hdl := List.length_drop ((cs.takeWhile isWs).length) cs
  cases hs1 : stripLit "use".data (cs.drop (cs.takeWhile isWs).length) with
  | some r1 =>
    have e1 := stripLit_eq_some hs1
    have l1 := congrArg List.length e1
    have lp : ("use".data).length = 3 := rfl
    rw [List.length_append, lp] at l1
    have hw2le := length_takeWhile_le isWs r1
    have hd2 := List.length_drop ((r1.takeWhile isWs).length) r1
    cases hm : multiGo (r1.drop ((r1.takeWhile isWs).length))
        ((cs.takeWhile isWs).length + 3 + (r1.takeWhile isWs).length)
        ((cs.takeWhile isWs).length + 3 + (r1.takeWhile isWs).length)
        ((cs.takeWhile isWs).length + 3 + (r1.takeWhile isWs).length) 0 with
    | some pc =>
      obtain ⟨parentRef, contentStart⟩ := pc
      have hmb := multiGo_bound _ _ _ _ _ _ _ hm (by simp) (by simp)
      cases hlc : lastCloseSemi
          ((cs.drop contentStart).takeWhile isNotNl) with
      | some j =>
        have hcalc : useMultiCaptures cs =
            some ((tokGo (((cs.drop contentStart).takeWhile
                isNotNl).take j) 0 0).map
              (fun r => ⟨r.start + contentStart, r.size⟩), parentRef) := by
          simp [useMultiCaptures, hs1, hm, hlc]
        rw [hcalc] at h
        have hinj := Option.some.inj h
        simp only [Prod.mk.injEq] at hinj
        obtain ⟨hA, hB⟩ := hinj
        subst hB
        obtain ⟨-, hget, hsemi⟩ := lastCloseSemi_some hlc
        have hjlt := get?_some_lt hsemi
        have hscan := length_takeWhile_le isNotNl
          (cs.drop contentStart)
        have hdl2 := List.length_drop contentStart cs
        constructor
        · omega
        · intro r hr
          rw [← hA] at hr
          simp only [List.mem_map] at hr
          obtain ⟨r0, hr0, hrr⟩ := hr
          have ht := tokGo_bound _ 0 0 r0 hr0
          have htk : (((cs.drop contentStart).takeWhile
              isNotNl).take j).length ≤ j := by
            have := List.length_take j ((cs.drop contentStart).takeWhile
              isNotNl)
            omega
          subst hrr
          dsimp only
          omega
      | none => simp [useMultiCaptures, hs1, hm, hlc] at h
    | none => simp [useMultiCaptures, hs1, hm] at h
  | none => simp [useMultiCaptures, hs1] at h

theorem otherCaptures_bound {cs : List Char} {r : LineRef}
    (h : otherCaptures cs = some r) : r.start + r.size ≤ cs.length := by
  simp only [otherCaptures] at h
  obtain ⟨a, ha, hfa⟩ := findSome?_eq_some_mem h
  rw [List.mem_reverse, List.mem_range] at ha
  have hwle := length_takeWhile_le isWs cs
  have hnl := length_takeWhile_le isNotNl (cs.drop a)
  have hda := List.length_drop a cs
  by_cases hc : max (a + 1) (cs.length - (cs.reverse.takeWhile isWs).length) ≤
      a + ((cs.drop a).takeWhile isNotNl).length
  · rw [if_pos hc] at hfa
    have hr := Option.some.inj hfa
    subst hr
    dsimp only
    have hmax : a + 1 ≤ max (a + 1)
        (cs.length - (cs.reverse.takeWhile isWs).length) := le_max_left _ _
    omega
  · rw [if_neg hc] at hfa
    cases hfa

/-- C9: every span stored in a classifier-produced token — including the
offset-adjusted name spans of a multi-import — satisfies
`start + size ≤ line.length`. -/
theorem classify_spans_in_bounds (cs : List Char) :
    tokenSpansOK (parse_line cs) = true := by
  rcases parse_line_cases cs with ⟨⟨b, r⟩, hcap, hp⟩ | ⟨h1, r, hcap, hp⟩ |
    ⟨h1, h2, ⟨ns, pr⟩, hcap, hp⟩ | ⟨h1, h2, h3, r, hp⟩
  · rw [hp]
    simp only [tokenSpansOK, decide_eq_true_eq]
    exact pubModCaptures_bound hcap
  · rw [hp]
    simp only [tokenSpansOK, decide_eq_true_eq]
    exact useSingleCaptures_bound hcap
  · rw [hp]
    obtain ⟨hpr, hns⟩ := useMultiCaptures_bound hcap
    simp only [tokenSpansOK, Bool.and_eq_true, decide_eq_true_eq,
      List.all_eq_true]
    exact ⟨hpr, fun r hr => by simpa using hns r hr⟩
  · have hp4 : parse_line cs = match otherCaptures cs with
        | some r => LineToken.otherLine cs r
        | none => LineToken.otherLine cs ⟨0, cs.length⟩ := by
      simp [parse_line, h1, h2, h3]
    cases h4 : otherCaptures cs with
    | some r' =>
      rw [h4] at hp4
      rw [hp4]
      simp only [tokenSpansOK, decide_eq_true_eq]
      exact otherCaptures_bound h4
    | none =>
      rw [h4] at hp4
      rw [hp4]
      simp [tokenSpansOK]

/-! Loader unfolding lemmas. -/

theorem load_tokens_cons_nondecl {ε : Type} (fs : FS ε) (f : Nat)
    (rel line : List Char) (rest : List (List Char))
    (h : (parse_line line).isDecl = false) :
    load_tokens fs (f + 1) rel (line :: rest) =
      match load_tokens fs f rel rest with
      | none => none
      | some (.error e) => some (.error e)
      | some (.ok toks) => some (.ok (parse_line line :: toks)) := by
  cases hp : parse_line line with
  | declareOtherModule l n pb => simp [LineToken.isDecl, hp] at h
  | useModule l n => simp [load_tokens, hp]
  | useManyModules ns l pr => simp [load_tokens, hp]
  | module n pb ts => simp [load_tokens, hp]
  | otherLine l r => simp [load_tokens, hp]

theorem load_tokens_cons_decl {ε : Type} (fs : FS ε) (f : Nat)
    (rel line l : List Char) (rest : List (List Char)) (nref : LineRef)
    (pb : Bool) (hp : parse_line line = .declareOtherModule l nref pb) :
    load_tokens fs (f + 1) rel (line :: rest) =
      match fs rel (nref.resolve l) with
      | .error e => some (.error e)
      | .ok sub =>
        match load_tokens fs f (rel ++ '/' :: nref.resolve l) sub with
        | none => none
        | some (.error e) => some (.error e)
        | some (.ok subToks) =>
          match load_tokens fs f rel rest with
          | none => none
          | some (.error e) => some (.error e)
          | some (.ok toks) =>
            some (.ok (.module (nref.resolve l) true subToks :: toks)) := by
  simp [load_tokens, hp]

theorem replacesLine_self {line : List Char}
    (h : (parse_line line).isDecl = false) :
    replacesLine line (parse_line line) := by
  unfold replacesLine
  cases hp : parse_line line with
  | declareOtherModule l n pb => simp [LineToken.isDecl, hp] at h
  | useModule l n => simp [hp]
  | useManyModules ns l pr => simp [hp]
  | module n pb ts => simp [hp]
  | otherLine l r => simp [hp]

/-- C6: whenever a load succeeds, every `Block` in the produced tree
(recursively) is public, and each input line is replaced positionally: a
declaration line by a public `Block` named by its resolved name span,
any other line by its classified token unchanged. -/
theorem load_blocks_public {ε : Type} (fs : FS ε) :
    ∀ (fuel : Nat) (rel : List Char) (lines : List (List Char))
      (toks : List LineToken),
      load_tokens fs fuel rel lines = some (Except.ok toks) →
      allPubList toks = true ∧ List.Forall₂ replacesLine lines toks := by
  intro fuel
  induction fuel with
  | zero => intro rel lines toks h; simp [load_tokens] at h
  | succ f ih =>
    intro rel lines toks h
    cases lines with
    | nil =>
      simp only [load_tokens, Option.some.injEq, Except.ok.injEq] at h
      subst h
      exact ⟨rfl, List.Forall₂.nil⟩
    | cons line rest =>
      by_cases hd : (parse_line line).isDecl = true
      · obtain ⟨l, nref, pb, hp⟩ : ∃ l nref pb,
            parse_line line = .declareOtherModule l nref pb := by
          cases hpl : parse_line line <;>
            simp only [LineToken.isDecl, hpl] at hd <;> simp_all
        rw [load_tokens_cons_decl fs f rel line l rest nref pb hp] at h
        cases hfs : fs rel (nref.resolve l) with
        | error e => simp only [hfs] at h; simp at h
        | ok sub =>
          simp only [hfs] at h
          cases hsub : load_tokens fs f (rel ++ '/' :: nref.resolve l) sub with
          | none => simp only [hsub] at h; simp at h
          | some r2 =>
            simp only [hsub] at h
            cases r2 with
            | error e => simp at h
            | ok subToks =>
              cases hrest : load_tokens fs f rel rest with
              | none => simp only [hrest] at h; simp at h
              | some r3 =>
                simp only [hrest] at h
                cases r3 with
                | error e => simp at h
                | ok restToks =>
                  simp only [Option.some.injEq, Except.ok.injEq] at h
                  subst h
                  obtain ⟨hpub1, -⟩ := ih _ _ _ hsub
                  obtain ⟨hpub2, hfa2⟩ := ih _ _ _ hrest
                  constructor
                  · simp [allPubList, allPubTok, hpub1, hpub2]
                  · refine List.Forall₂.cons ?_ hfa2
                    unfold replacesLine
                    rw [hp]
                    exact ⟨subToks, rfl⟩
      · rw [Bool.not_eq_true] at hd
        rw [load_tokens_cons_nondecl fs f rel line rest hd] at h
        cases hrest : load_tokens fs f rel rest with
        | none => simp only [hrest] at h; simp at h
        | some r3 =>
          simp only [hrest] at h
          cases r3 with
          | error e => simp at h
          | ok restToks =>
            simp only [Option.some.injEq, Except.ok.injEq] at h
            subst h
            obtain ⟨hpub2, hfa2⟩ := ih _ _ _ hrest
            constructor
            · have hself : allPubTok (parse_line line) = true := by
                cases hpl : parse_line line with
                | declareOtherModule l n pb => simp [LineToken.isDecl, hpl] at hd
                | module n pb ts => exact absurd hpl (parse_line_ne_module _ _ _ _)
                | useModule l n => simp [hpl, allPubTok]
                | useManyModules ns l pr => simp [hpl, allPubTok]
                | otherLine l r => simp [hpl, allPubTok]
              simp [allPubList, hself, hpub2]
            · exact List.Forall₂.cons (replacesLine_self hd) hfa2

/-- C6 witness at the repository's own two-module fixture. -/
theorem load_blocks_public_witness :
    allPubList
        [.useModule "use std::io;".data ⟨4, 7⟩,
         .useManyModules [⟨10, 9⟩] "use std::{BufReader};".data ⟨4, 3⟩,
         .module "game".data true
           [.otherLine "struct Game \x7b".data ⟨0, 13⟩,
            .otherLine "    test: i32,".data ⟨4, 10⟩,
            .otherLine "\x7d".data ⟨0, 1⟩,
            .otherLine "use std::fs::{File}".data ⟨0, 19⟩,
            .useModule "use std::io;".data ⟨4, 7⟩],
         .otherLine "enum Test \x7b".data ⟨0, 11⟩,
         .otherLine "    One,".data ⟨4, 4⟩,
         .otherLine "\x7d".data ⟨0, 1⟩] = true
    ∧ List.Forall₂ replacesLine
        ["use std::io;".data, "use std::{BufReader};".data,
         "pub mod game;".data, "enum Test \x7b".data, "    One,".data, "\x7d".data]
        [.useModule "use std::io;".data ⟨4, 7⟩,
         .useManyModules [⟨10, 9⟩] "use std::{BufReader};".data ⟨4, 3⟩,
         .module "game".data true
           [.otherLine "struct Game \x7b".data ⟨0, 13⟩,
            .otherLine "    test: i32,".data ⟨4, 10⟩,
            .otherLine "\x7d".data ⟨0, 1⟩,
            .otherLine "use std::fs::{File}".data ⟨0, 19⟩,
            .useModule "use std::io;".data ⟨4, 7⟩],
         .otherLine "enum Test \x7b".data ⟨0, 11⟩,
         .otherLine "    One,".data ⟨4, 4⟩,
         .otherLine "\x7d".data ⟨0, 1⟩] :=
  load_blocks_public testFS 20 []
    ["use std::io;".data, "use std::{BufReader};".data,
     "pub mod game;".data, "enum Test \x7b".data, "    One,".data, "\x7d".data]
    _ (by rfl)

theorem load_error_from_resolver {ε : Type} (fs : FS ε) :
    ∀ (fuel : Nat) (rel : List Char) (lines : List (List Char)) (e : ε),
      load_tokens fs fuel rel lines = some (Except.error e) →
      ∃ r n, fs r n = Except.error e := by
  intro fuel
  induction fuel with
  | zero => intro rel lines e h; simp [load_tokens] at h
  | succ f ih =>
    intro rel lines e h
    cases lines with
    | nil => simp [load_tokens] at h
    | cons line rest =>
      by_cases hd : (parse_line line).isDecl = true
      · obtain ⟨l, nref, pb, hp⟩ : ∃ l nref pb,
            parse_line line = .declareOtherModule l nref pb := by
          cases hpl : parse_line line <;>
            simp only [LineToken.isDecl, hpl] at hd <;> simp_all
        rw [load_tokens_cons_decl fs f rel line l rest nref pb hp] at h
        cases hfs : fs rel (nref.resolve l) with
        | error e2 =>
          simp only [hfs] at h
          simp only [Option.some.injEq, Except.error.injEq] at h
          subst h
          exact ⟨rel, nref.resolve l, hfs⟩
        | ok sub =>
          simp only [hfs] at h
          cases hsub : load_tokens fs f (rel ++ '/' :: nref.resolve l) sub with
          | none => simp only [hsub] at h; simp at h
          | some r2 =>
            simp only [hsub] at h
            cases r2 with
            | error e2 =>
              simp only [Option.some.injEq, Except.error.injEq] at h
              subst h
              exact ih _ _ _ hsub
            | ok subToks =>
              cases hrest : load_tokens fs f rel rest with
              | none => simp only [hrest] at h; simp at h
              | some r3 =>
                simp only [hrest] at h
                cases r3 with
                | error e2 =>
                  simp only [Option.some.injEq, Except.error.injEq] at h
                  subst h
                  exact ih _ _ _ hrest
                | ok toks => simp at h
      · rw [Bool.not_eq_true] at hd
        rw [load_tokens_cons_nondecl fs f rel line rest hd] at h
        cases hrest : load_tokens fs f rel rest with
        | none => simp only [hrest] at h; simp at h
        | some r3 =>
          simp only [hrest] at h
          cases r3 with
          | error e2 =>
            simp only [Option.some.injEq, Except.error.injEq] at h
            subst h
            exact ih _ _ _ hrest
          | ok toks => simp at h

/-- C7 (amended): a resolver failure during load aborts the whole load,
the `Bundle`'s loaded token sequence is left exactly as it was, and the
surfaced error is the resolver's own error value, passed through verbatim
(no relative-path/module-name context is attached by the loader). -/
theorem load_failure_aborts_unchanged {ε : Type} (fs : FS ε) (fuel : Nat)
    (b res : Bundle) (e : ε)
    (h : Bundle.load fs fuel b = some (.error e, res)) :
    res = b ∧ ∃ r n, fs r n = Except.error e := by
  unfold Bundle.load at h
  cases hfs : fs [] b.entry_module with
  | error e2 =>
    simp only [hfs] at h
    simp only [Option.some.injEq, Prod.mk.injEq, Except.error.injEq] at h
    obtain ⟨he, hres⟩ := h
    subst he
    exact ⟨hres.symm, [], b.entry_module, hfs⟩
  | ok lines =>
    simp only [hfs] at h
    cases hlt : load_tokens fs fuel [] lines with
    | none => simp only [hlt] at h; simp at h
    | some r2 =>
      simp only [hlt] at h
      cases r2 with
      | error e2 =>
        simp only [Option.some.injEq, Prod.mk.injEq, Except.error.injEq] at h
        obtain ⟨he, hres⟩ := h
        subst he
        exact ⟨hres.symm, load_error_from_resolver fs fuel [] lines _ hlt⟩
      | ok toks => simp at h

/-- C7 counterexample: with the missing-submodule fixture the load aborts
with the resolver's literal `"not found"` message, which names neither the
failing module `game` nor the entry `main` — no identifying context is
attached — although the token sequence is indeed left unchanged. -/
theorem load_error_lacks_module_context :
    Bundle.load fsMissingSub 3 ⟨"main".data, []⟩ =
      some (.error "not found".data, ⟨"main".data, []⟩)
    ∧ containsSeq "not found".data "game".data = false
    ∧ containsSeq "not found".data "main".data = false := by
  refine ⟨by rfl, by decide, by decide⟩

/-- C7 witness: the amended theorem applied to the concrete fixture. -/
theorem load_failure_aborts_unchanged_witness :
    (⟨"main".data, []⟩ : Bundle) = ⟨"main".data, []⟩ ∧
      ∃ r n, fsMissingSub r n = Except.error "not found".data :=
  load_failure_aborts_unchanged fsMissingSub 3 ⟨"main".data, []⟩
    ⟨"main".data, []⟩ "not found".data (by rfl)

/-! Towards C5: the fallback rule on lines with visible content. -/

theorem drop_length_takeWhile {α : Type} (p : α → Bool) :
    ∀ (l : List α), l.drop (l.takeWhile p).length = l.dropWhile p := by
  intro l
  induction l with
  | nil => rfl
  | cons c t ih =>
    by_cases hp : p c = true
    · simp only [List.takeWhile_cons, List.dropWhile_cons, hp, if_true,
        List.length_cons, List.drop_succ_cons]
      exact ih
    · rw [Bool.not_eq_true] at hp
      simp [List.takeWhile_cons, List.dropWhile_cons, hp]

theorem takeWhile_length_lt_of_exists {α : Type} {p : α → Bool} :
    ∀ {cs : List α}, (∃ c ∈ cs, p c = false) →
      (cs.takeWhile p).length < cs.length := by
  intro cs
  induction cs with
  | nil => intro h; simp at h
  | cons c t ih =>
    intro h
    by_cases hp : p c = true
    · obtain ⟨x, hx, hpx⟩ := h
      rcases List.mem_cons.1 hx with rfl | hx'
      · rw [hp] at hpx; cases hpx
      · have := ih ⟨x, hx', hpx⟩
        simp only [List.takeWhile_cons, hp, if_true, List.length_cons]
        omega
    · rw [Bool.not_eq_true] at hp
      simp [List.takeWhile_cons, hp]

theorem takeWhile_append_of_lt {α : Type} (p : α → Bool) :
    ∀ (a b : List α), (a.takeWhile p).length < a.length →
      (a ++ b).takeWhile p = a.takeWhile p := by
  intro a
  induction a with
  | nil => intro b h; simp at h
  | cons c t ih =>
    intro b h
    by_cases hp : p c = true
    · simp only [List.takeWhile_cons, hp, if_true, List.length_cons] at h ⊢
      rw [List.cons_append]  -- no-op positioning
      simp only [List.takeWhile_cons, hp, if_true] at *
      rw [ih b (by omega)]
    · rw [Bool.not_eq_true] at hp
      simp [List.takeWhile_cons, hp]

theorem dropWhile_head_false {α : Type} {p : α → Bool} :
    ∀ {l : List α} {c : α} {rest : List α},
      l.dropWhile p = c :: rest → p c = false := by
  intro l
  induction l with
  | nil => intro c rest h; cases h
  | cons a t ih =>
    intro c rest h
    by_cases hp : p a = true
    · rw [List.dropWhile_cons, if_pos hp] at h
      exact ih h
    · rw [Bool.not_eq_true] at hp
      rw [List.dropWhile_cons, if_neg (by simp [hp])] at h
      cases h
      exact hp

/-- C5 (amended): for every line holding at least one non-whitespace
character and no newline, if no structural pattern matches then `classify`
returns a `PlainLine` whose trimmed span resolves to the line with leading
and trailing whitespace stripped; and the empty line yields the zero-length
span at offset 0.  (A whitespace-only non-empty line instead gets a
one-character span — see the counterexample.) -/
theorem classify_plain_trimmed :
    (∀ cs : List Char, pubModCaptures cs = none → useSingleCaptures cs = none →
      useMultiCaptures cs = none → (∃ c ∈ cs, isWs c = false) → '\n' ∉ cs →
      ∃ r, parse_line cs = .otherLine cs r ∧ r.resolve cs = listTrim cs)
    ∧ parse_line [] = .otherLine [] ⟨0, 0⟩ := by
  constructor
  · intro cs h1 h2 h3 h4 h5
    set w := (cs.takeWhile isWs).length with hw
    set t := cs.length - (cs.reverse.takeWhile isWs).length with ht
    have hwlt : w < cs.length := takeWhile_length_lt_of_exists h4
    have hnl : ∀ c ∈ cs.drop w, isNotNl c = true := by
      intro c hc
      have hcs : c ∈ cs := List.drop_subset _ _ hc
      simp only [isNotNl, ne_eq, decide_eq_true_eq]
      intro hcn
      exact h5 (hcn ▸ hcs)
    have hscan : (cs.drop w).takeWhile isNotNl = cs.drop w :=
      takeWhile_eq_self_of_all isNotNl _ hnl
    have hdlen := List.length_drop w cs
    -- the suffix structure
    have hd : cs.drop w = cs.dropWhile isWs := drop_length_takeWhile isWs cs
    have hdne : (cs.dropWhile isWs).length = cs.length - w := by
      rw [← hd]; exact hdlen
    obtain ⟨c0, d', hd0⟩ : ∃ c0 d', cs.dropWhile isWs = c0 :: d' := by
      cases hcase : cs.dropWhile isWs with
      | nil => rw [hcase] at hdne; simp at hdne; omega
      | cons c0 d' => exact ⟨c0, d', rfl⟩
    have hc0 : isWs c0 = false := dropWhile_head_false hd0
    -- the whitespace suffix of cs is exactly that of its dropWhile part
    have hsplit : cs = cs.takeWhile isWs ++ cs.dropWhile isWs :=
      (List.takeWhile_append_dropWhile isWs cs).symm
    have hrev : cs.reverse =
        (cs.dropWhile isWs).reverse ++ (cs.takeWhile isWs).reverse := by
      conv_lhs => rw [hsplit]
      rw [List.reverse_append]
    have hhead : ((cs.dropWhile isWs).reverse.takeWhile isWs).length <
        (cs.dropWhile isWs).reverse.length := by
      apply takeWhile_length_lt_of_exists
      exact ⟨c0, by simp [hd0], hc0⟩
    have hsuf : cs.reverse.takeWhile isWs =
        (cs.dropWhile isWs).reverse.takeWhile isWs := by
      rw [hrev, takeWhile_append_of_lt _ _ _ hhead]
    have hsuflt : (cs.reverse.takeWhile isWs).length <
        (cs.dropWhile isWs).length := by
      rw [hsuf]
      simpa using hhead
    have htw : w < t := by
      rw [ht]
      omega
    -- evaluate otherCaptures
    have hoc : otherCaptures cs = some ⟨w, t - w⟩ := by
      simp only [otherCaptures, ← hw, ← ht]
      have hrange : (List.range (w + 1)).reverse = w :: (List.range w).reverse := by
        rw [List.range_succ, List.reverse_append]
        rfl
      rw [hrange, List.findSome?_cons]
      have hcond : max (w + 1) t ≤ w + ((cs.drop w).takeWhile isNotNl).length := by
        rw [hscan, hdlen]
        have : t ≤ cs.length := by rw [ht]; omega
        omega
      rw [if_pos hcond]
      have : max (w + 1) t = t := by omega
      rw [this]
    refine ⟨⟨w, t - w⟩, by simp [parse_line, h1, h2, h3, hoc], ?_⟩
    -- resolve the span to the trimmed line
    show (cs.drop w).take (t - w) = listTrim cs
    rw [hd]
    unfold listTrim
    -- abbreviate
    set d := cs.dropWhile isWs with hdd
    have hdecomp : d = (d.reverse.dropWhile isWs).reverse ++
        (d.reverse.takeWhile isWs).reverse := by
      conv_lhs => rw [← List.reverse_reverse d]
      conv_lhs =>
        rw [← List.takeWhile_append_dropWhile isWs d.reverse]
      rw [List.reverse_append]
    have hlen : t - w = (d.reverse.dropWhile isWs).length := by
      have h1' := congrArg List.length
        (List.takeWhile_append_dropWhile isWs d.reverse)
      simp only [List.length_append, List.length_reverse] at h1'
      have h2' : (cs.reverse.takeWhile isWs).length =
          (d.reverse.takeWhile isWs).length := by rw [hsuf]
      rw [ht]
      omega
    conv_lhs => rw [hdecomp]
    rw [hlen]
    have := List.take_left (d.reverse.dropWhile isWs).reverse
      (d.reverse.takeWhile isWs).reverse
    rw [List.length_reverse] at this
    exact this
  · rfl

/-- C5 counterexample: on the whitespace-only line `"   "` the fallback
regex (lazy `.+?` after backing off the greedy `\s*`) captures the single
last space at span `(2,1)`, which does not resolve to the empty string the
trim rule would give. -/
theorem plain_trim_span_false_on_blank :
    parse_line "   ".data = .otherLine "   ".data ⟨2, 1⟩
    ∧ LineRef.resolve ⟨2, 1⟩ "   ".data ≠ listTrim "   ".data :=
  ⟨by rfl, by decide⟩

/-- C5 witness: the amended theorem applied to `"   class Turn  "`. -/
theorem classify_plain_trimmed_witness :
    ∃ r, parse_line "   class Turn  ".data =
        .otherLine "   class Turn  ".data r
      ∧ r.resolve "   class Turn  ".data = listTrim "   class Turn  ".data :=
  classify_plain_trimmed.1 "   class Turn  ".data (by rfl) (by rfl) (by rfl)
    (by decide) (by decide)

/-! Towards C10: classification and loading of arbitrary declaration lines. -/

theorem get?_append_length {α : Type} :
    ∀ (l : List α) (a : α) (r : List α), (l ++ a :: r).get? l.length = some a := by
  intro l a r
  induction l with
  | nil => rfl
  | cons x t ih => simpa using ih

theorem lastSemiIdx_at_end (text : List Char) (hne : text ≠ []) :
    lastSemiIdx (text ++ [';']) = some text.length := by
  unfold lastSemiIdx
  have hlen : (text ++ [';']).length = text.length + 1 := by simp
  rw [hlen, List.range_succ, List.reverse_append]
  simp only [List.reverse_singleton, List.singleton_append]
  rw [List.findSome?_cons]
  have hget : (text ++ [';']).get? text.length = some ';' :=
    get?_append_length text ';' []
  have hpos : 1 ≤ text.length := List.length_pos.2 hne
  rw [if_pos ⟨hpos, hget⟩]

theorem scan_concat_semi (text : List Char) (hnl : '\n' ∉ text) :
    (text ++ [';']).takeWhile isNotNl = text ++ [';'] := by
  apply takeWhile_eq_self_of_all
  intro c hc
  rcases List.mem_append.1 hc with hc' | hc'
  · simp only [isNotNl, ne_eq, decide_eq_true_eq]
    intro h
    exact hnl (h ▸ hc')
  · simp only [List.mem_singleton] at hc'
    subst hc'
    decide

/-- C10: a line `[ws][pub ]mod <text>;` — `<text>` any non-empty sequence of
non-newline characters, not only an identifier — classifies as a
`SubmoduleDeclaration` whose name span covers exactly `<text>` (up to the
final terminator), and the loader hands that resolved text, unmodified, to
the resolver as the module name (observed through a resolver that echoes
its arguments in its error). -/
theorem classify_mod_decl_general (ws text : List Char) (pubkw : Bool)
    (hws : ∀ c ∈ ws, isWs c = true) (hne : text ≠ []) (hnl : '\n' ∉ text) :
    parse_line (mkModLine ws text pubkw) =
      .declareOtherModule (mkModLine ws text pubkw)
        ⟨ws.length + (if pubkw then 8 else 4), text.length⟩ pubkw
    ∧ LineRef.resolve ⟨ws.length + (if pubkw then 8 else 4), text.length⟩
        (mkModLine ws text pubkw) = text
    ∧ ∀ (f : Nat) (rel : List Char) (rest : List (List Char)),
        load_tokens probeFS (f + 1) rel (mkModLine ws text pubkw :: rest) =
          some (.error (rel, text)) := by
  have hscan := scan_concat_semi text hnl
  have hsemi := lastSemiIdx_at_end text hne
  cases pubkw with
  | true =>
    have hline : mkModLine ws text true =
        ws ++ ("pub".data ++ (' ' :: ("mod ".data ++ (text ++ [';'])))) := by
      show ws ++ "pub ".data ++ "mod ".data ++ text ++ [';'] = _
      rw [show ("pub ".data : List Char) = "pub".data ++ [' '] from rfl]
      simp [List.append_assoc]
    have htw : (mkModLine ws text true).takeWhile isWs = ws := by
      rw [hline, takeWhile_append_of_all isWs ws _ hws]
      have h0 : ("pub".data ++
          (' ' :: ("mod ".data ++ (text ++ [';'])))).takeWhile isWs = [] := by
        rw [show ("pub".data : List Char) = 'p' :: 'u' :: 'b' :: [] from rfl]
        simp only [List.cons_append]
        exact takeWhile_cons_of_false isWs 'p' _ (by decide)
      rw [h0, List.append_nil]
    have hdrop : (mkModLine ws text true).drop ws.length =
        "pub".data ++ (' ' :: ("mod ".data ++ (text ++ [';']))) := by
      rw [hline]
      exact List.drop_left ws _
    have hr1tw : ((' ' :: ("mod ".data ++ (text ++ [';']))).takeWhile isWs)
        = [' '] := by
      rw [List.takeWhile_cons, if_pos (by decide)]
      have h0 : ("mod ".data ++ (text ++ [';'])).takeWhile isWs = [] := by
        rw [show ("mod ".data : List Char) = 'm' :: 'o' :: 'd' :: ' ' :: []
          from rfl]
        simp only [List.cons_append]
        exact takeWhile_cons_of_false isWs 'm' _ (by decide)
      rw [h0]
    have htail : pubModTail (text ++ [';']) (ws.length + 3 + 1 + 4) =
        some ⟨ws.length + 8, text.length⟩ := by
      unfold pubModTail
      rw [hscan, hsemi]
    have hcap : pubModCaptures (mkModLine ws text true) =
        some (true, ⟨ws.length + 8, text.length⟩) := by
      simp only [pubModCaptures, htw, hdrop, stripLit_append]
      simp only [hr1tw, List.length_singleton, List.drop_succ_cons,
        List.drop_zero, stripLit_append, htail, Option.map_some']
    have hresolve : LineRef.resolve
        ⟨ws.length + 8, text.length⟩ (mkModLine ws text true) = text := by
      unfold LineRef.resolve
      have hassoc : mkModLine ws text true =
          (ws ++ "pub ".data ++ "mod ".data) ++ (text ++ [';']) := by
        show ws ++ "pub ".data ++ "mod ".data ++ text ++ [';'] = _
        simp [List.append_assoc]
      have hlen : (ws ++ "pub ".data ++ "mod ".data).length = ws.length + 8 := by
        simp only [List.length_append]
        rw [show ("pub ".data : List Char).length = 4 from rfl,
          show ("mod ".data : List Char).length = 4 from rfl]
      rw [hassoc]
      show ((ws ++ "pub ".data ++ "mod ".data ++ (text ++ [';'])).drop
        (ws.length + 8)).take text.length = text
      rw [show ws ++ "pub ".data ++ "mod ".data ++ (text ++ [';']) =
        (ws ++ "pub ".data ++ "mod ".data) ++ (text ++ [';']) by
          simp [List.append_assoc]]
      rw [← hlen, List.drop_left, List.take_left]
    have hp : parse_line (mkModLine ws text true) =
        .declareOtherModule (mkModLine ws text true)
          ⟨ws.length + 8, text.length⟩ true := by
      simp [parse_line, hcap]
    refine ⟨by simpa using hp, by simpa using hresolve, ?_⟩
    intro f rel rest
    rw [load_tokens_cons_decl probeFS f rel _ _ rest _ true hp]
    rw [hresolve]
    rfl
  | false =>
    have hline : mkModLine ws text false =
        ws ++ ("mod ".data ++ (text ++ [';'])) := by
      show ws ++ [] ++ "mod ".data ++ text ++ [';'] = _
      simp [List.append_assoc]
    have htw : (mkModLine ws text false).takeWhile isWs = ws := by
      rw [hline, takeWhile_append_of_all isWs ws _ hws]
      have h0 : ("mod ".data ++ (text ++ [';'])).takeWhile isWs = [] := by
        rw [show ("mod ".data : List Char) = 'm' :: 'o' :: 'd' :: ' ' :: []
          from rfl]
        simp only [List.cons_append]
        exact takeWhile_cons_of_false isWs 'm' _ (by decide)
      rw [h0, List.append_nil]
    have hdrop : (mkModLine ws text false).drop ws.length =
        "mod ".data ++ (text ++ [';']) := by
      rw [hline]
      exact List.drop_left ws _
    have hnopub : stripLit "pub".data ("mod ".data ++ (text ++ [';'])) =
        none := by
      rfl
    have htail : pubModTail (text ++ [';']) (ws.length + 4) =
        some ⟨ws.length + 4, text.length⟩ := by
      unfold pubModTail
      rw [hscan, hsemi]
    have hcap : pubModCaptures (mkModLine ws text false) =
        some (false, ⟨ws.length + 4, text.length⟩) := by
      simp only [pubModCaptures, htw, hdrop, hnopub, stripLit_append, htail,
        Option.map_some']
    have hresolve : LineRef.resolve
        ⟨ws.length + 4, text.length⟩ (mkModLine ws text false) = text := by
      unfold LineRef.resolve
      have hlen : (ws ++ "mod ".data).length = ws.length + 4 := by
        simp only [List.length_append]
        rw [show ("mod ".data : List Char).length = 4 from rfl]
      rw [show mkModLine ws text false =
        (ws ++ "mod ".data) ++ (text ++ [';']) by
          show ws ++ [] ++ "mod ".data ++ text ++ [';'] = _
          simp [List.append_assoc]]
      rw [← hlen, List.drop_left, List.take_left]
    have hp : parse_line (mkModLine ws text false) =
        .declareOtherModule (mkModLine ws text false)
          ⟨ws.length + 4, text.length⟩ false := by
      simp [parse_line, hcap]
    refine ⟨by simpa using hp, by simpa using hresolve, ?_⟩
    intro f rel rest
    rw [load_tokens_cons_decl probeFS f rel _ _ rest _ false hp]
    rw [hresolve]
    rfl

/-- C10 witness: `"  pub mod foo bar::baz;"` — a declared name that is not a
bare identifier — classifies with the span covering `foo bar::baz`, and the
loader passes exactly that text to the resolver. -/
theorem classify_mod_decl_general_witness :
    parse_line (mkModLine "  ".data "foo bar::baz".data true) =
      .declareOtherModule (mkModLine "  ".data "foo bar::baz".data true)
        ⟨10, 12⟩ true
    ∧ LineRef.resolve ⟨10, 12⟩ (mkModLine "  ".data "foo bar::baz".data true)
        = "foo bar::baz".data
    ∧ load_tokens probeFS 1 []
        [mkModLine "  ".data "foo bar::baz".data true] =
      some (.error ([], "foo bar::baz".data)) := by
  have h := classify_mod_decl_general "  ".data "foo bar::baz".data true
    (by decide) (by decide) (by decide)
  exact ⟨h.1, h.2.1, h.2.2 0 [] []⟩

/-! Towards C4: multi-import lines with several path segments. -/

theorem word_not_ws {c : Char} (h : isWordChar c = true) : isWs c = false := by
  by_contra hw
  rw [Bool.not_eq_false] at hw
  have hc : c = ' ' ∨ c = '\t' ∨ c = '\n' ∨ c = '\r' ∨ c = '\x0b' ∨
      c = '\x0c' := by
    simpa [isWs, or_assoc] using hw
  rcases hc with h1 | h1 | h1 | h1 | h1 | h1 <;> subst h1 <;>
    exact absurd h (by decide)

theorem joinSegs_append (a b : List (List Char)) :
    joinSegs (a ++ b) = joinSegs a ++ joinSegs b := by
  induction a with
  | nil => simp [joinSegs]
  | cons s t ih =>
    simp only [joinSegs, List.cons_append, List.foldr_cons] at ih ⊢
    rw [ih]
    simp [List.append_assoc]

theorem multiGo_word (c : Char) (hc : isWordChar c = true)
    (rest : List Char) (i rs re : Nat) :
    multiGo (c :: rest) i rs re 1 = multiGo rest (i + 1) rs re 1 := by
  simp only [multiGo, hc, if_true, if_pos rfl]

theorem multiGo_word_start (c : Char) (hc : isWordChar c = true)
    (rest : List Char) (i rs re st : Nat) (hst : st = 0 ∨ st = 3) :
    multiGo (c :: rest) i rs re st = multiGo rest (i + 1) i re 1 := by
  have h1 : st ≠ 1 := by rcases hst with rfl | rfl <;> simp
  have h2 : st ≠ 2 := by rcases hst with rfl | rfl <;> simp
  simp only [multiGo, hc, if_true, if_neg h1, if_neg h2]

theorem multiGo_colon1 (rest : List Char) (i rs re : Nat) :
    multiGo (':' :: rest) i rs re 1 = multiGo rest (i + 1) rs i 2 := by
  simp only [multiGo]
  rw [if_neg (by decide : ¬ isWordChar ':' = true)]
  simp

theorem multiGo_colon2 (rest : List Char) (i rs re : Nat) :
    multiGo (':' :: rest) i rs re 2 = multiGo rest (i + 1) rs re 3 := by
  simp only [multiGo]
  rw [if_neg (by decide : ¬ isWordChar ':' = true)]
  simp

theorem multiGo_brace3 (rest : List Char) (i rs re : Nat) :
    multiGo ('{' :: rest) i rs re 3 = some (⟨rs, re - rs⟩, i + 1) := by
  simp only [multiGo]
  rw [if_neg (by decide : ¬ isWordChar '{' = true)]
  simp

theorem multiGo_run (s : List Char) (hw : ∀ c ∈ s, isWordChar c = true) :
    ∀ (rest : List Char) (i rs re : Nat),
      multiGo (s ++ rest) i rs re 1 = multiGo rest (i + s.length) rs re 1 := by
  induction s with
  | nil => intro rest i rs re; simp
  | cons c s' ih =>
    intro rest i rs re
    rw [List.cons_append, multiGo_word c (hw c (by simp)) _ i rs re]
    rw [ih (fun x hx => hw x (by simp [hx])) rest (i + 1) rs re]
    rw [show i + 1 + s'.length = i + (c :: s').length by simp; omega]

theorem multiGo_start (s : List Char) (hs : s ≠ [])
    (hw : ∀ c ∈ s, isWordChar c = true) (rest : List Char) (i rs re st : Nat)
    (hst : st = 0 ∨ st = 3) :
    multiGo (s ++ rest) i rs re st = multiGo rest (i + s.length) i re 1 := by
  cases s with
  | nil => exact absurd rfl hs
  | cons c s' =>
    rw [List.cons_append, multiGo_word_start c (hw c (by simp)) _ i rs re st hst]
    rw [multiGo_run s' (fun x hx => hw x (by simp [hx])) rest (i + 1) i re]
    rw [show i + 1 + s'.length = i + (c :: s').length by simp; omega]

theorem multiGo_segs (last : List Char) (hl : last ≠ [])
    (hlw : ∀ c ∈ last, isWordChar c = true) :
    ∀ (segs : List (List Char)),
      (∀ s ∈ segs, s ≠ [] ∧ ∀ c ∈ s, isWordChar c = true) →
      ∀ (tail : List Char) (i rs re st : Nat), (st = 0 ∨ st = 3) →
        multiGo (joinSegs (segs ++ [last]) ++ '{' :: tail) i rs re st =
          some (⟨i + (joinSegs segs).length, last.length⟩,
                i + (joinSegs segs).length + last.length + 3) := by
  intro segs
  induction segs with
  | nil =>
    intro _ tail i rs re st hst
    rw [show joinSegs ([] ++ [last]) = last ++ ':' :: ':' :: [] by
      simp [joinSegs]]
    rw [show (last ++ ':' :: ':' :: []) ++ '{' :: tail =
      last ++ (':' :: ':' :: '{' :: tail) by simp]
    rw [multiGo_start last hl hlw _ i rs re st hst]
    rw [multiGo_colon1, multiGo_colon2, multiGo_brace3]
    rw [show i + last.length - i = last.length by omega]
    rw [show (joinSegs ([] : List (List Char))).length = 0 by rfl]
    rw [show i + last.length + 1 + 1 + 1 = i + 0 + last.length + 3 by omega]
    rw [show i + 0 = i by omega]
  | cons s segs' ih =>
    intro hseg tail i rs re st hst
    have hs : s ≠ [] := (hseg s (by simp)).1
    have hsw : ∀ c ∈ s, isWordChar c = true := (hseg s (by simp)).2
    rw [show joinSegs ((s :: segs') ++ [last]) =
      s ++ (':' :: ':' :: joinSegs (segs' ++ [last])) by simp [joinSegs]]
    rw [show (s ++ (':' :: ':' :: joinSegs (segs' ++ [last]))) ++ '{' :: tail =
      s ++ (':' :: ':' :: (joinSegs (segs' ++ [last]) ++ '{' :: tail)) by
        simp]
    rw [multiGo_start s hs hsw _ i rs re st hst]
    rw [multiGo_colon1, multiGo_colon2]
    rw [ih (fun x hx => hseg x (by simp [hx])) tail (i + s.length + 1 + 1)
      i (i + s.length) 3 (Or.inr rfl)]
    have hlen : (joinSegs (s :: segs')).length =
        s.length + 2 + (joinSegs segs').length := by
      show (s ++ ':' :: ':' :: joinSegs segs').length = _
      simp
      omega
    rw [show i + s.length + 1 + 1 + (joinSegs segs').length =
      i + (joinSegs (s :: segs')).length by rw [hlen]; omega]

theorem pathGo_word (c : Char) (hc : isWordChar c = true)
    (rest : List Char) (i st : Nat) (hst : st ≠ 2) :
    pathGo (c :: rest) i st = pathGo rest (i + 1) 1 := by
  simp only [pathGo, hc, if_true, if_neg hst]

theorem pathGo_colon1 (rest : List Char) (i : Nat) :
    pathGo (':' :: rest) i 1 = pathGo rest (i + 1) 2 := by
  simp only [pathGo]
  rw [if_neg (by decide : ¬ isWordChar ':' = true)]
  have h1 : (':' = ';') = False := eq_false (by decide)
  simp [h1]

theorem pathGo_colon2 (rest : List Char) (i : Nat) :
    pathGo (':' :: rest) i 2 = pathGo rest (i + 1) 0 := by
  simp only [pathGo]
  rw [if_neg (by decide : ¬ isWordChar ':' = true)]
  simp

theorem pathGo_brace (rest : List Char) (i st : Nat) :
    pathGo ('{' :: rest) i st = none := by
  simp only [pathGo]
  rw [if_neg (by decide : ¬ isWordChar '{' = true)]
  have h1 : ('{' = ';') = False := eq_false (by decide)
  have h2 : ('{' = ':') = False := eq_false (by decide)
  simp [h1, h2]

theorem pathGo_run (s : List Char) (hw : ∀ c ∈ s, isWordChar c = true) :
    ∀ (rest : List Char) (i : Nat),
      pathGo (s ++ rest) i 1 = pathGo rest (i + s.length) 1 := by
  induction s with
  | nil => intro rest i; simp
  | cons c s' ih =>
    intro rest i
    rw [List.cons_append,
      pathGo_word c (hw c (by simp)) _ i 1 (by decide)]
    rw [ih (fun x hx => hw x (by simp [hx])) rest (i + 1)]
    rw [show i + 1 + s'.length = i + (c :: s').length by simp; omega]

theorem pathGo_start (s : List Char) (hs : s ≠ [])
    (hw : ∀ c ∈ s, isWordChar c = true) (rest : List Char) (i : Nat) :
    pathGo (s ++ rest) i 0 = pathGo rest (i + s.length) 1 := by
  cases s with
  | nil => exact absurd rfl hs
  | cons c s' =>
    rw [List.cons_append,
      pathGo_word c (hw c (by simp)) _ i 0 (by decide)]
    rw [pathGo_run s' (fun x hx => hw x (by simp [hx])) rest (i + 1)]
    rw [show i + 1 + s'.length = i + (c :: s').length by simp; omega]

theorem pathGo_segs_none (last : List Char) (hl : last ≠ [])
    (hlw : ∀ c ∈ last, isWordChar c = true) :
    ∀ (segs : List (List Char)),
      (∀ s ∈ segs, s ≠ [] ∧ ∀ c ∈ s, isWordChar c = true) →
      ∀ (tail : List Char) (i : Nat),
        pathGo (joinSegs (segs ++ [last]) ++ '{' :: tail) i 0 = none := by
  intro segs
  induction segs with
  | nil =>
    intro _ tail i
    rw [show joinSegs ([] ++ [last]) = last ++ ':' :: ':' :: [] by
      simp [joinSegs]]
    rw [show (last ++ ':' :: ':' :: []) ++ '{' :: tail =
      last ++ (':' :: ':' :: '{' :: tail) by simp]
    rw [pathGo_start last hl hlw _ i, pathGo_colon1, pathGo_colon2,
      pathGo_brace]
  | cons s segs' ih =>
    intro hseg tail i
    have hs : s ≠ [] := (hseg s (by simp)).1
    have hsw : ∀ c ∈ s, isWordChar c = true := (hseg s (by simp)).2
    rw [show joinSegs ((s :: segs') ++ [last]) =
      s ++ (':' :: ':' :: joinSegs (segs' ++ [last])) by simp [joinSegs]]
    rw [show (s ++ (':' :: ':' :: joinSegs (segs' ++ [last]))) ++ '{' :: tail =
      s ++ (':' :: ':' :: (joinSegs (segs' ++ [last]) ++ '{' :: tail)) by
        simp]
    rw [pathGo_start s hs hsw _ i, pathGo_colon1, pathGo_colon2]
    exact ih (fun x hx => hseg x (by simp [hx])) tail _

theorem tokGo_comma (rest : List Char) (start size : Nat) :
    tokGo (',' :: rest) start size =
      ⟨start, size⟩ :: tokGo rest (start + size + 1) 0 := by
  simp [tokGo]

theorem tokGo_space0 (rest : List Char) (start : Nat) :
    tokGo (' ' :: rest) start 0 = tokGo rest (start + 1) 0 := by
  simp only [tokGo]
  have h1 : ((' ' : Char) = ',') = False := eq_false (by decide)
  simp [h1]

theorem tokGo_run (n : List Char) (hn : ∀ c ∈ n, c ≠ ',' ∧ c ≠ ' ') :
    ∀ (rest : List Char) (start size : Nat),
      tokGo (n ++ rest) start size = tokGo rest start (size + n.length) := by
  induction n with
  | nil => intro rest start size; simp
  | cons c n' ih =>
    intro rest start size
    have hc := hn c (by simp)
    rw [List.cons_append]
    simp only [tokGo]
    rw [if_neg hc.1, if_neg (fun h => hc.2 h.1)]
    rw [ih (fun x hx => hn x (by simp [hx])) rest start (size + 1)]
    rw [show size + 1 + n'.length = size + (c :: n').length by simp; omega]

theorem tokGo_sepNames :
    ∀ (names : List (List Char)),
      (∀ n ∈ names, n ≠ [] ∧ ∀ c ∈ n, c ≠ ',' ∧ c ≠ ' ') →
      ∀ start, tokGo (sepNames names) start 0 = spansFrom start names := by
  intro names
  induction names with
  | nil => intro _ start; rfl
  | cons n ns ih =>
    intro h start
    have hn := h n (by simp)
    cases ns with
    | nil =>
      have hrun := tokGo_run n hn.2 [] start 0
      rw [List.append_nil] at hrun
      show tokGo n start 0 = spansFrom start [n]
      rw [hrun]
      have hpos : 0 < n.length := List.length_pos.2 hn.1
      simp [tokGo, spansFrom, hpos]
    | cons n2 ns2 =>
      show tokGo (n ++ ',' :: ' ' :: sepNames (n2 :: ns2)) start 0 = _
      rw [tokGo_run n hn.2, tokGo_comma, tokGo_space0]
      rw [show (0 : Nat) + n.length = n.length by omega]
      rw [ih (fun x hx => h x (by simp [hx])) (start + n.length + 1 + 1)]
      show _ = ⟨start, n.length⟩ :: spansFrom (start + n.length + 2) (n2 :: ns2)
      rw [show start + n.length + 1 + 1 = start + n.length + 2 by omega]

theorem spansFrom_shift (b : Nat) :
    ∀ (names : List (List Char)) (a : Nat),
      (spansFrom a names).map
          (fun r => (⟨r.start + b, r.size⟩ : LineRef)) =
        spansFrom (a + b) names := by
  intro names
  induction names with
  | nil => intro a; rfl
  | cons n ns ih =>
    intro a
    simp only [spansFrom, List.map_cons]
    rw [ih (a + n.length + 2)]
    rw [show a + n.length + 2 + b = a + b + n.length + 2 by omega]

theorem lastCloseSemi_at_end (inner : List Char) (hne : inner ≠ []) :
    lastCloseSemi (inner ++ ['}', ';']) = some inner.length := by
  have hget1 : (inner ++ ['}', ';']).get? inner.length = some '}' :=
    get?_append_length inner '}' [';']
  have hget2 : (inner ++ ['}', ';']).get? (inner.length + 1) = some ';' := by
    rw [show inner ++ ['}', ';'] = (inner ++ ['}']) ++ [';'] by simp]
    rw [show inner.length + 1 = (inner ++ ['}']).length by simp]
    exact get?_append_length (inner ++ ['}']) ';' []
  unfold lastCloseSemi
  rw [show (inner ++ ['}', ';']).length = inner.length + 2 by simp]
  rw [show List.range (inner.length + 2) =
    (List.range inner.length ++ [inner.length]) ++ [inner.length + 1] by
      rw [← List.range_succ, ← List.range_succ]]
  rw [List.reverse_append, List.reverse_append]
  simp only [List.reverse_singleton, List.singleton_append, List.cons_append]
  rw [List.findSome?_cons]
  rw [if_neg (by
    rintro ⟨-, h2, -⟩
    rw [hget2] at h2
    exact absurd (Option.some.inj h2) (by decide))]
  simp only [List.nil_append]
  change List.findSome? _ (inner.length :: (List.range inner.length).reverse) = _
  rw [List.findSome?_cons]
  rw [if_pos ⟨List.length_pos.2 hne, hget1, hget2⟩]

theorem mem_sepNames :
    ∀ {names : List (List Char)} {c : Char}, c ∈ sepNames names →
      (∃ n ∈ names, c ∈ n) ∨ c = ',' ∨ c = ' ' := by
  intro names
  induction names with
  | nil => intro c h; simp [sepNames] at h
  | cons n ns ih =>
    intro c h
    cases ns with
    | nil => exact Or.inl ⟨n, by simp, h⟩
    | cons n2 ns2 =>
      rcases List.mem_append.1 h with h1 | h1
      · exact Or.inl ⟨n, by simp, h1⟩
      · rcases List.mem_cons.1 h1 with rfl | h2
        · exact Or.inr (Or.inl rfl)
        · rcases List.mem_cons.1 h2 with rfl | h3
          · exact Or.inr (Or.inr rfl)
          · rcases ih h3 with ⟨n', hn', hc'⟩ | h4
            · exact Or.inl ⟨n', by simp [hn'], hc'⟩
            · exact Or.inr h4

theorem sepNames_ne_nil {names : List (List Char)} (h0 : names ≠ [])
    (h1 : ∀ n ∈ names, n ≠ []) : sepNames names ≠ [] := by
  cases names with
  | nil => exact absurd rfl h0
  | cons n ns =>
    cases ns with
    | nil => exact h1 n (by simp)
    | cons n2 ns2 =>
      show n ++ ',' :: ' ' :: sepNames (n2 :: ns2) ≠ []
      simp

theorem resolve_spansFrom :
    ∀ (names : List (List Char)) (A B : List Char),
      List.Forall₂ (fun r n => LineRef.resolve r (A ++ (sepNames names ++ B)) = n)
        (spansFrom A.length names) names := by
  intro names
  induction names with
  | nil => intro A B; exact List.Forall₂.nil
  | cons n ns ih =>
    intro A B
    refine List.Forall₂.cons ?_ ?_
    · show ((A ++ (sepNames (n :: ns) ++ B)).drop A.length).take n.length = n
      rw [List.drop_left]
      cases ns with
      | nil =>
        show ((n ++ B).take n.length) = n
        exact List.take_left n B
      | cons n2 ns2 =>
        show (((n ++ ',' :: ' ' :: sepNames (n2 :: ns2)) ++ B).take n.length) = n
        rw [List.append_assoc]
        exact List.take_left n _
    · cases ns with
      | nil => exact List.Forall₂.nil
      | cons n2 ns2 =>
        have hres := ih (A ++ (n ++ [',', ' '])) B
        have heq : (A ++ (n ++ [',', ' '])) ++ (sepNames (n2 :: ns2) ++ B) =
            A ++ (sepNames (n :: n2 :: ns2) ++ B) := by
          show _ = A ++ ((n ++ ',' :: ' ' :: sepNames (n2 :: ns2)) ++ B)
          simp
        have hlen : (A ++ (n ++ [',', ' '])).length = A.length + n.length + 2 := by
          simp
          omega
        rw [heq, hlen] at hres
        exact hres

theorem mkMultiLine_shape (segs names : List (List Char)) :
    mkMultiLine segs names =
      'u' :: 's' :: 'e' :: ' ' ::
        (joinSegs segs ++ '{' :: (sepNames names ++ ['}', ';'])) := by
  unfold mkMultiLine
  rw [show ("use ".data : List Char) = 'u' :: 's' :: 'e' :: ' ' :: [] from rfl]
  simp [List.append_assoc]

/-- C4 (amended): for a multi-import line
`use <s1>::…::<sk>::{<n1>, <n2>, …};` (word-character path segments, names
without commas/spaces/newlines, separated by `", "`), classification yields
a `UseManyModules` token whose name spans, offset-adjusted to the original
line, resolve in order to exactly `[n1, n2, …]`, and whose parent span
resolves to the LAST path segment `<sk>` — the final iteration of the
repeated capture group — not to the full path prefix. -/
theorem classify_multi_import_general
    (segs0 : List (List Char)) (last : List Char) (names : List (List Char))
    (hseg : ∀ s ∈ segs0 ++ [last], s ≠ [] ∧ ∀ c ∈ s, isWordChar c = true)
    (hnames0 : names ≠ [])
    (hname : ∀ n ∈ names, n ≠ [] ∧ ∀ c ∈ n, c ≠ ',' ∧ c ≠ ' ' ∧ c ≠ '\n') :
    parse_line (mkMultiLine (segs0 ++ [last]) names) =
      .useManyModules
        (spansFrom ((joinSegs (segs0 ++ [last])).length + 5) names)
        (mkMultiLine (segs0 ++ [last]) names)
        ⟨4 + (joinSegs segs0).length, last.length⟩
    ∧ LineRef.resolve ⟨4 + (joinSegs segs0).length, last.length⟩
        (mkMultiLine (segs0 ++ [last]) names) = last
    ∧ List.Forall₂
        (fun r n =>
          LineRef.resolve r (mkMultiLine (segs0 ++ [last]) names) = n)
        (spansFrom ((joinSegs (segs0 ++ [last])).length + 5) names) names := by
  have hlast := hseg last (by simp)
  have hl : last ≠ [] := hlast.1
  have hlw : ∀ c ∈ last, isWordChar c = true := hlast.2
  have hseg0 : ∀ s ∈ segs0, s ≠ [] ∧ ∀ c ∈ s, isWordChar c = true :=
    fun s hs => hseg s (by simp [hs])
  have hname' : ∀ n ∈ names, n ≠ [] ∧ ∀ c ∈ n, c ≠ ',' ∧ c ≠ ' ' :=
    fun n hn => ⟨(hname n hn).1, fun c hc =>
      ⟨((hname n hn).2 c hc).1, ((hname n hn).2 c hc).2.1⟩⟩
  have hinnerne : sepNames names ≠ [] :=
    sepNames_ne_nil hnames0 (fun n hn => (hname n hn).1)
  have hJlen : (joinSegs (segs0 ++ [last])).length =
      (joinSegs segs0).length + last.length + 2 := by
    rw [joinSegs_append]
    have h0 : (joinSegs [last]).length = last.length + 2 := by
      simp [joinSegs]
    simp [h0]
    omega
  -- the head of the segment part is a word character
  obtain ⟨c0, J', hJc0, hc0⟩ : ∃ c0 J',
      joinSegs (segs0 ++ [last]) = c0 :: J' ∧ isWordChar c0 = true := by
    cases segs0 with
    | nil =>
      cases last with
      | nil => exact absurd rfl hl
      | cons c l' =>
        refine ⟨c, l' ++ ':' :: ':' :: [], ?_, hlw c (by simp)⟩
        simp [joinSegs]
    | cons s segs0' =>
      have hs := hseg s (by simp)
      cases s with
      | nil => exact absurd rfl hs.1
      | cons c s' =>
        refine ⟨c, s' ++ ':' :: ':' :: joinSegs (segs0' ++ [last]), ?_,
          hs.2 c (by simp)⟩
        simp [joinSegs]
  have hLshape := mkMultiLine_shape (segs0 ++ [last]) names
  have htw : ('u' :: 's' :: 'e' :: ' ' :: (joinSegs (segs0 ++ [last]) ++
      '{' :: (sepNames names ++ ['}', ';']))).takeWhile isWs = [] :=
    takeWhile_cons_of_false isWs 'u' _ (by decide)
  have hw2 : ((' ' :: (joinSegs (segs0 ++ [last]) ++
      '{' :: (sepNames names ++ ['}', ';']))).takeWhile isWs) = [' '] := by
    rw [List.takeWhile_cons, if_pos (by decide)]
    rw [hJc0, List.cons_append,
      takeWhile_cons_of_false isWs c0 _ (word_not_ws hc0)]
  have hstripuse : stripLit ['u', 's', 'e']
      ('u' :: 's' :: 'e' :: ' ' :: (joinSegs (segs0 ++ [last]) ++
        '{' :: (sepNames names ++ ['}', ';']))) =
      some (' ' :: (joinSegs (segs0 ++ [last]) ++
        '{' :: (sepNames names ++ ['}', ';']))) :=
    stripLit_append "use".data _
  -- PUB_MOD does not match
  have hpub : pubModCaptures (mkMultiLine (segs0 ++ [last]) names) = none := by
    simp only [pubModCaptures, hLshape, htw, List.length_nil, List.drop_zero]
    have h1 : (('u' : Char) = 'p') = False := eq_false (by decide)
    have h2 : (('u' : Char) = 'm') = False := eq_false (by decide)
    simp [stripLit, h1, h2]
  -- USE_SINGLE does not match
  have hpathnone := pathGo_segs_none last hl hlw segs0 hseg0
    (sepNames names ++ ['}', ';']) 4
  have hsingle : useSingleCaptures (mkMultiLine (segs0 ++ [last]) names) =
      none := by
    simp only [useSingleCaptures, hLshape, htw, List.length_nil,
      List.drop_zero, hstripuse, hw2, List.length_singleton,
      List.drop_succ_cons, hpathnone, Option.map_none']
  -- USE_MULTI matches with the computed captures
  have hmgo := multiGo_segs last hl hlw segs0 hseg0
    (sepNames names ++ ['}', ';']) 4 4 4 0 (Or.inl rfl)
  have hcsteq : 4 + (joinSegs segs0).length + last.length + 3 =
      (joinSegs (segs0 ++ [last])).length + 5 := by
    rw [hJlen]
    omega
  have hdropcst : ('u' :: 's' :: 'e' :: ' ' :: (joinSegs (segs0 ++ [last]) ++
      '{' :: (sepNames names ++ ['}', ';']))).drop
        ((joinSegs (segs0 ++ [last])).length + 5) =
      sepNames names ++ ['}', ';'] := by
    rw [show ('u' :: 's' :: 'e' :: ' ' :: (joinSegs (segs0 ++ [last]) ++
      '{' :: (sepNames names ++ ['}', ';'])) : List Char) =
      ('u' :: 's' :: 'e' :: ' ' :: (joinSegs (segs0 ++ [last]) ++ ['{'])) ++
        (sepNames names ++ ['}', ';']) by simp [List.append_assoc]]
    rw [show (joinSegs (segs0 ++ [last])).length + 5 =
      ('u' :: 's' :: 'e' :: ' ' ::
        (joinSegs (segs0 ++ [last]) ++ ['{'])).length by
      simp]
    exact List.drop_left _ _
  have hscan : (sepNames names ++ ['}', ';']).takeWhile isNotNl =
      sepNames names ++ ['}', ';'] := by
    apply takeWhile_eq_self_of_all
    intro c hc
    rcases List.mem_append.1 hc with h1 | h1
    · rcases mem_sepNames h1 with ⟨n, hn, hcn⟩ | h2 | h2
      · simp only [isNotNl, ne_eq, decide_eq_true_eq]
        exact ((hname n hn).2 c hcn).2.2
      · subst h2; decide
      · subst h2; decide
    · rcases List.mem_cons.1 h1 with rfl | h2
      · decide
      · simp only [List.mem_singleton] at h2
        subst h2
        decide
  have hlcs := lastCloseSemi_at_end (sepNames names) hinnerne
  have htake : (sepNames names ++ ['}', ';']).take (sepNames names).length =
      sepNames names := List.take_left _ _
  have htok := tokGo_sepNames names hname' 0
  have hshift : (spansFrom 0 names).map
      (fun r => (⟨r.start + ((joinSegs (segs0 ++ [last])).length + 5),
        r.size⟩ : LineRef)) =
      spansFrom ((joinSegs (segs0 ++ [last])).length + 5) names := by
    rw [spansFrom_shift]
    rw [Nat.zero_add]
  have hmulti : useMultiCaptures (mkMultiLine (segs0 ++ [last]) names) =
      some (spansFrom ((joinSegs (segs0 ++ [last])).length + 5) names,
        ⟨4 + (joinSegs segs0).length, last.length⟩) := by
    simp only [useMultiCaptures, hLshape, htw, List.length_nil,
      List.drop_zero, hstripuse, hw2, List.length_singleton,
      List.drop_succ_cons, hmgo, hcsteq, hdropcst, hscan, hlcs, htake, htok,
      hshift]
  refine ⟨by simp [parse_line, hpub, hsingle, hmulti], ?_, ?_⟩
  · -- the parent span resolves to the last segment
    have hJsplit : joinSegs (segs0 ++ [last]) =
        joinSegs segs0 ++ (last ++ ':' :: ':' :: []) := by
      rw [joinSegs_append]
      rw [show joinSegs [last] = last ++ ':' :: ':' :: [] by simp [joinSegs]]
    show ((mkMultiLine (segs0 ++ [last]) names).drop
      (4 + (joinSegs segs0).length)).take last.length = last
    rw [hLshape, hJsplit]
    rw [show ('u' :: 's' :: 'e' :: ' ' ::
      ((joinSegs segs0 ++ (last ++ ':' :: ':' :: [])) ++
        '{' :: (sepNames names ++ ['}', ';'])) : List Char) =
      ('u' :: 's' :: 'e' :: ' ' :: joinSegs segs0) ++
        (last ++ (':' :: ':' :: '{' :: (sepNames names ++ ['}', ';']))) by
      simp [List.append_assoc]]
    rw [show 4 + (joinSegs segs0).length =
      ('u' :: 's' :: 'e' :: ' ' :: joinSegs segs0).length by
      simp
      omega]
    rw [List.drop_left, List.take_left]
  · -- each name span resolves to its own name
    have hres := resolve_spansFrom names
      ('u' :: 's' :: 'e' :: ' ' :: (joinSegs (segs0 ++ [last]) ++ ['{']))
      ['}', ';']
    have heq : ('u' :: 's' :: 'e' :: ' ' ::
        (joinSegs (segs0 ++ [last]) ++ ['{'])) ++
          (sepNames names ++ ['}', ';']) =
        mkMultiLine (segs0 ++ [last]) names := by
      rw [hLshape]
      simp [List.append_assoc]
    have hlen2 : ('u' :: 's' :: 'e' :: ' ' ::
        (joinSegs (segs0 ++ [last]) ++ ['{'])).length =
        (joinSegs (segs0 ++ [last])).length + 5 := by
      simp
    rw [heq, hlen2] at hres
    exact hres

/-- C4 counterexample: on `use a::b::{c};` the parent span is `(7,1)` and
resolves to `b` — the last path segment only — not to the full path prefix
`a::b` the claim requires. -/
theorem multi_parent_not_full_prefix :
    parse_line "use a::b::{c};".data =
      .useManyModules [⟨11, 1⟩] "use a::b::{c};".data ⟨7, 1⟩
    ∧ LineRef.resolve ⟨7, 1⟩ "use a::b::{c};".data = "b".data
    ∧ "b".data ≠ ("a::b".data : List Char) :=
  ⟨by rfl, by rfl, by decide⟩

/-- C4 witness: the amended theorem applied to `use a::b::{c, dd};`. -/
theorem classify_multi_import_general_witness :
    parse_line (mkMultiLine (["a".data] ++ ["b".data])
        ["c".data, "dd".data]) =
      .useManyModules
        (spansFrom ((joinSegs (["a".data] ++ ["b".data])).length + 5)
          ["c".data, "dd".data])
        (mkMultiLine (["a".data] ++ ["b".data]) ["c".data, "dd".data])
        ⟨4 + (joinSegs ["a".data]).length, ("b".data : List Char).length⟩
    ∧ LineRef.resolve
        ⟨4 + (joinSegs ["a".data]).length, ("b".data : List Char).length⟩
        (mkMultiLine (["a".data] ++ ["b".data]) ["c".data, "dd".data]) =
      "b".data
    ∧ List.Forall₂
        (fun r n => LineRef.resolve r
          (mkMultiLine (["a".data] ++ ["b".data]) ["c".data, "dd".data]) = n)
        (spansFrom ((joinSegs (["a".data] ++ ["b".data])).length + 5)
          ["c".data, "dd".data])
        ["c".data, "dd".data] :=
  classify_multi_import_general ["a".data] "b".data ["c".data, "dd".data]
    (by decide) (by decide) (by decide)

/-! Towards C1: the two-level round trip. -/

theorem write_tokens_append :
    ∀ (a b : List LineToken),
      write_tokens (a ++ b) = write_tokens a ++ write_tokens b := by
  intro a b
  induction a with
  | nil => simp [write_tokens]
  | cons t ts ih =>
    show write_tokens (t :: (ts ++ b)) = _
    simp only [write_tokens, ih, List.append_assoc]

theorem write_tokens_map_parse :
    ∀ lines : List (List Char),
      write_tokens (lines.map parse_line) = unlines lines := by
  intro lines
  induction lines with
  | nil => simp [write_tokens, unlines]
  | cons l t ih =>
    simp only [List.map_cons, write_tokens, writeToken_parse_line, ih,
      unlines]
    simp

theorem load_tokens_no_decl {ε : Type} (fs : FS ε) :
    ∀ (lines : List (List Char)) (fuel : Nat) (rel : List Char),
      (∀ x ∈ lines, (parse_line x).isDecl = false) → lines.length < fuel →
      load_tokens fs fuel rel lines = some (.ok (lines.map parse_line)) := by
  intro lines
  induction lines with
  | nil =>
    intro fuel rel _ hf
    cases fuel with
    | zero => omega
    | succ f => simp [load_tokens]
  | cons l t ih =>
    intro fuel rel h hf
    cases fuel with
    | zero => simp at hf
    | succ f =>
      rw [load_tokens_cons_nondecl fs f rel l t (h l (by simp))]
      rw [ih f rel (fun x hx => h x (by simp [hx]))
        (by simp only [List.length_cons] at hf; omega)]
      simp

theorem load_tokens_append_no_decl {ε : Type} (fs : FS ε) :
    ∀ (l₁ : List (List Char)) (fuel : Nat) (rel : List Char)
      (l₂ : List (List Char)),
      (∀ x ∈ l₁, (parse_line x).isDecl = false) → l₁.length ≤ fuel →
      load_tokens fs fuel rel (l₁ ++ l₂) =
        match load_tokens fs (fuel - l₁.length) rel l₂ with
        | none => none
        | some (.error e) => some (.error e)
        | some (.ok t) => some (.ok (l₁.map parse_line ++ t)) := by
  intro l₁
  induction l₁ with
  | nil =>
    intro fuel rel l₂ _ _
    simp only [List.nil_append, List.length_nil, Nat.sub_zero, List.map_nil]
    cases h : load_tokens fs fuel rel l₂ with
    | none => simp
    | some r => cases r <;> simp
  | cons l t ih =>
    intro fuel rel l₂ h hf
    cases fuel with
    | zero => simp only [List.length_cons] at hf; omega
    | succ f =>
      rw [List.cons_append,
        load_tokens_cons_nondecl fs f rel l (t ++ l₂) (h l (by simp))]
      rw [ih f rel l₂ (fun x hx => h x (by simp [hx]))
        (by simp only [List.length_cons] at hf; omega)]
      rw [show f + 1 - (l :: t).length = f - t.length by
        simp only [List.length_cons]; omega]
      cases hX : load_tokens fs (f - t.length) rel l₂ with
      | none => simp
      | some r =>
        cases r with
        | error e => simp
        | ok toks => simp

/-- C1: loading a two-level module tree — the root declares one child and
no line of the child classifies as a further declaration — and writing the
result produces exactly: the root's earlier lines verbatim, a single
`pub mod <name>{` line, the child's file content verbatim, a `}` line, and
the root's remaining lines verbatim, in original order. -/
theorem bundle_round_trip {ε : Type} (fs : FS ε) (b : Bundle)
    (pre post game : List (List Char)) (declLine nm l : List Char)
    (nref : LineRef) (pb : Bool) (fuel : Nat)
    (hroot : fs [] b.entry_module = .ok (pre ++ declLine :: post))
    (hp : parse_line declLine = .declareOtherModule l nref pb)
    (hnm : nref.resolve l = nm)
    (hgame : fs [] nm = .ok game)
    (hpre : ∀ x ∈ pre, (parse_line x).isDecl = false)
    (hpost : ∀ x ∈ post, (parse_line x).isDecl = false)
    (hgamedecl : ∀ x ∈ game, (parse_line x).isDecl = false)
    (hfuel : pre.length + post.length + game.length + 2 ≤ fuel) :
    ∃ toks,
      Bundle.load fs fuel b = some (.ok (), ⟨b.entry_module, toks⟩)
      ∧ write_tokens toks =
          unlines pre ++ "pub mod ".data ++ nm ++ "\x7b\n".data ++
            unlines game ++ "\x7d\n".data ++ unlines post := by
  refine ⟨pre.map parse_line ++
    LineToken.module nm true (game.map parse_line) :: post.map parse_line,
    ?_, ?_⟩
  · -- the load computes the expected token tree
    have hload : load_tokens fs fuel [] (pre ++ declLine :: post) =
        some (.ok (pre.map parse_line ++
          LineToken.module nm true (game.map parse_line) ::
            post.map parse_line)) := by
      rw [load_tokens_append_no_decl fs pre fuel [] (declLine :: post) hpre
        (by omega)]
      rw [show fuel - pre.length = (fuel - pre.length - 1) + 1 by omega]
      rw [load_tokens_cons_decl fs (fuel - pre.length - 1) [] declLine l post
        nref pb hp]
      rw [hnm]
      simp only [hgame,
        load_tokens_no_decl fs game (fuel - pre.length - 1)
          ([] ++ '/' :: nm) hgamedecl (by omega),
        load_tokens_no_decl fs post (fuel - pre.length - 1) [] hpost
          (by omega)]
    show Bundle.load fs fuel b = _
    simp only [Bundle.load, hroot, hload]
  · -- the written output has the claimed shape
    rw [write_tokens_append]
    rw [show write_tokens (LineToken.module nm true (game.map parse_line) ::
      post.map parse_line) =
      writeToken (LineToken.module nm true (game.map parse_line)) ++
        write_tokens (post.map parse_line) by simp [write_tokens]]
    rw [write_tokens_map_parse, write_tokens_map_parse]
    have hm : writeToken (LineToken.module nm true (game.map parse_line)) =
        "pub mod ".data ++ nm ++ "\x7b\n".data ++ unlines game ++ "\x7d\n".data := by
      simp [writeToken, write_tokens_map_parse, List.append_assoc]
    rw [hm]
    simp [List.append_assoc]

/-- C1 witness: the round trip on the repository's own `main`/`game`
fixture, reproducing the output of the `write_works` test. -/
theorem bundle_round_trip_witness :
    ∃ toks,
      Bundle.load testFS 20 ⟨"main".data, []⟩ =
        some (.ok (), ⟨"main".data, toks⟩)
      ∧ write_tokens toks =
          unlines ["use std::io;".data, "use std::{BufReader};".data] ++
            "pub mod ".data ++ "game".data ++ "\x7b\n".data ++
            unlines ["struct Game \x7b".data, "    test: i32,".data, "\x7d".data,
              "use std::fs::{File}".data, "use std::io;".data] ++
            "\x7d\n".data ++
            unlines ["enum Test \x7b".data, "    One,".data, "\x7d".data] :=
  bundle_round_trip testFS ⟨"main".data, []⟩
    ["use std::io;".data, "use std::{BufReader};".data]
    ["enum Test \x7b".data, "    One,".data, "\x7d".data]
    ["struct Game \x7b".data, "    test: i32,".data, "\x7d".data,
     "use std::fs::{File}".data, "use std::io;".data]
    "pub mod game;".data "game".data "pub mod game;".data ⟨8, 4⟩ true 20
    (by rfl) (by rfl) (by rfl) (by rfl) (by decide) (by decide) (by decide)
    (by decide)
